import Mathlib

/-!
# Verification of the joseki Go rules engine

A shallow embedding of the repository's `Board` and `Game` modules
(`src/board.rs`, `src/game.rs`).

Conventions of the embedding:

* Rust `usize` values are modelled as `Nat` (no arithmetic in the code can
  overflow a 64-bit machine word for any realistic board).
* A Rust panic (out-of-range `Vec` indexing, which is how `Index` /
  `IndexMut` for `Board` fail) is modelled by `Option`: a function returns
  `none` exactly when the Rust original would panic.
* `HashSet<(usize, usize)>` is modelled as `Finset (Nat × Nat)`: the only
  observations the source makes of a hash set are membership, insertion,
  cardinality, the unique element of a singleton, and iteration whose
  result is order-independent (clearing captured cells).
* The DFS worklist loops (`Board::chain_at`, `Board::liberties`) are
  `while` loops in the source; they are embedded with an explicit fuel
  parameter.  Exhausted fuel yields `none`; the development proves that
  the fuel supplied by `Board.dfsFuel` never runs out on well-formed
  boards, so the embedded functions return `some` exactly where the
  source terminates normally (which it always does).
* Rust's `Vec::pop` removes the *last* element.  The worklist is kept
  head-first here (list head = top of stack), so batches of pushed
  elements appear `List.reverse`d relative to the order `Vec::push` was
  called in; the pop order is identical to the source's.
-/

/-- Cell state: `src/board.rs` `enum Stone`. -/
inductive Stone : Type
  | Empty : Stone
  | Black : Stone
  | White : Stone
deriving DecidableEq, Repr

namespace Stone

/-- Rust `Stone::char` from `src/board.rs`. -/
def char : Stone → Char
  | Empty => '⋅' -- U+22C5 DOT OPERATOR
  | Black => '●' -- U+25CF BLACK CIRCLE
  | White => '○' -- U+25CB WHITE CIRCLE

/-- Rust `Stone::not` from `src/board.rs`. -/
def not : Stone → Stone
  | Empty => Empty
  | Black => White
  | White => Black

end Stone

/-- Coordinates `(x, y)` on the board. -/
abbrev Pos := Nat × Nat

/-- Rust `struct Board` from `src/board.rs`: a flat row-major grid plus its side
length.  Cell `(x, y)` lives at flat index `y * size + x`. -/
structure Board : Type where
  state : List Stone
  size : Nat
deriving DecidableEq, Repr

/-- Rust `DEFAULT_BOARD_SIZE` from `src/board.rs`. -/
def DEFAULT_BOARD_SIZE : Nat := 19

namespace Board

/-- Rust `Board::with_size`. -/
def with_size (size : Nat) : Board :=
  { state := List.replicate (size * size) Stone.Empty, size := size }

/-- Rust `Board::new`. -/
def new : Board := with_size DEFAULT_BOARD_SIZE

/-- The symbol table of `Board::from_str`: the `match` arm applied to each
non-whitespace character. -/
def charToStone (c : Char) : Stone :=
  if c = 'B' ∨ c = 'X' ∨ c = 'x' ∨ c = '#' then Stone.Black
  else if c = 'W' ∨ c = 'O' ∨ c = 'o' ∨ c = '0' then Stone.White
  else Stone.Empty

/-- Rust `Board::from_str`: strip whitespace, map the symbol table, infer `size`
as the integer square root of the cell count.  (`(len as f64).sqrt() as
usize` is exact integer square root for every vector length a board can
have, so it is modelled by `Nat.sqrt`.) -/
def from_str (s : String) : Board :=
  let state := (s.toList.filter (fun c => !c.isWhitespace)).map charToStone
  { state := state, size := Nat.sqrt state.length }

/-- Reading `self[(x, y)]` (the `Index` impl): `state[y * size + x]`, `none`
when the vector indexing would panic. -/
def get? (b : Board) (x y : Nat) : Option Stone :=
  b.state.get? (y * b.size + x)

/-- Writing `self[(x, y)] = s` (the `IndexMut` impl), `none` when the vector
indexing would panic. -/
def set? (b : Board) (x y : Nat) (s : Stone) : Option Board :=
  if y * b.size + x < b.state.length then
    some { b with state := b.state.set (y * b.size + x) s }
  else none

/-- Rust `Board::neighbours`: in-bounds orthogonal neighbours of `(x, y)`, in the
push order of the source. -/
def neighbours (b : Board) (x y : Nat) : List Pos :=
  (if 0 < x then [(x - 1, y)] else []) ++
  (if 0 < y then [(x, y - 1)] else []) ++
  (if x < b.size - 1 then [(x + 1, y)] else []) ++
  (if y < b.size - 1 then [(x, y + 1)] else [])

/-- Fuel for the DFS worklist loops; proven sufficient on well-formed
boards (`chainLoop_total`, `libLoop_total`). -/
def dfsFuel (b : Board) : Nat := 5 * (b.size * b.size) + 5

/-- The body of `Board::chain_at`'s initial horizon construction:
`self.neighbours(x, y).into_iter().filter(|&p| self[p] == stone)`.
Reads every listed cell, so `none` if any read panics. -/
def colorFilter (b : Board) (stone : Stone) : List Pos → Option (List Pos)
  | [] => some []
  | (a, c) :: rest => do
    let s ← b.get? a c
    let tail ← b.colorFilter stone rest
    if s = stone then return (a, c) :: tail else return tail

/-- The push step inside `Board::chain_at`'s loop:
`if self[(a, b)] == stone && !seen.contains(&(a, b)) { horizon.push }`.
The read happens before the `seen` test (Rust `&&` evaluates its left
operand first), so every listed cell is read. -/
def filterStone (b : Board) (stone : Stone) (seen : Finset Pos) :
    List Pos → Option (List Pos)
  | [] => some []
  | (a, c) :: rest => do
    let s ← b.get? a c
    let tail ← b.filterStone stone seen rest
    if s = stone ∧ (a, c) ∉ seen then return (a, c) :: tail else return tail

/-- The `while` loop of `Board::chain_at`: pop, mark seen, push unseen
same-colored neighbours. -/
def chainLoop (b : Board) (stone : Stone) :
    Nat → Finset Pos → List Pos → Option (Finset Pos)
  | _, seen, [] => some seen
  | 0, _, _ :: _ => none
  | fuel + 1, seen, (nx, ny) :: horizon => do
    let seen' := insert (nx, ny) seen
    let pushes ← b.filterStone stone seen' (b.neighbours nx ny)
    b.chainLoop stone fuel seen' (pushes.reverse ++ horizon)

/-- Rust `Board::chain_at`. -/
def chain_at (b : Board) (x y : Nat) : Option (Finset Pos) := do
  let stone ← b.get? x y
  if stone = Stone.Empty then return (∅ : Finset Pos)
  let init ← b.colorFilter stone (b.neighbours x y)
  b.chainLoop stone b.dfsFuel (insert (x, y) ∅) init.reverse

/-- The `while` loop of `Board::liberties`: pop, mark seen, record empty
cells, push unseen neighbours of same-colored cells. -/
def libLoop (b : Board) (stone : Stone) :
    Nat → Finset Pos → Finset Pos → List Pos → Option (Finset Pos)
  | _, _, libs, [] => some libs
  | 0, _, _, _ :: _ => none
  | fuel + 1, seen, libs, (nx, ny) :: horizon => do
    let seen' := insert (nx, ny) seen
    let s ← b.get? nx ny
    let libs' := if s = Stone.Empty then insert (nx, ny) libs else libs
    if s = stone then
      let pushes := ((b.neighbours nx ny).filter (fun p => p ∉ seen')).reverse
      b.libLoop stone fuel seen' libs' (pushes ++ horizon)
    else
      b.libLoop stone fuel seen' libs' horizon

/-- Rust `Board::liberties`. -/
def liberties (b : Board) (x y : Nat) : Option (Finset Pos) := do
  let stone ← b.get? x y
  if stone = Stone.Empty then return (∅ : Finset Pos)
  b.libLoop stone b.dfsFuel (insert (x, y) ∅) ∅ (b.neighbours x y).reverse

/-- The capture-enabling scan of `Board::legal_move`: the `for` loop over
`self.neighbours(x, y)` that returns `true` as soon as some adjacent
opposing chain's sole liberty is `(x, y)`.  `some true` = the loop
returned `true`; `some false` = the loop finished without returning. -/
def captureCheck (b : Board) (stone : Stone) (x y : Nat) :
    List Pos → Option Bool
  | [] => some false
  | (nx, ny) :: rest => do
    let c ← b.get? nx ny
    if c = stone.not then
      let libs ← b.liberties nx ny
      if libs.card = 1 ∧ (x, y) ∈ libs then return true
      else b.captureCheck stone x y rest
    else b.captureCheck stone x y rest

/-- Rust `Board::legal_move`.  Returns the verdict together with the board the
borrow leaves behind (the source temporarily writes the candidate stone
during the self-capture simulation and reverts it); the Rust early
returns appear as nested `if`/`match` arms. -/
def legal_move (b : Board) (stone : Stone) (x y : Nat) :
    Option (Bool × Board) :=
  if stone = Stone.Empty then
    some (false, b)
  else
    match b.get? x y with
    | none => none
    | some c =>
      if c ≠ Stone.Empty then
        some (false, b)
      else if x ≥ b.size ∨ y ≥ b.size then
        some (false, b)
      else
        match b.captureCheck stone x y (b.neighbours x y) with
        | none => none
        | some cap =>
          if cap then
            some (true, b)
          else
            match b.set? x y stone with
            | none => none
            | some b1 =>
              match b1.liberties x y with
              | none => none
              | some libs =>
                match b1.set? x y Stone.Empty with
                | none => none
                | some b2 =>
                  if libs.card = 0 then some (false, b2)
                  else some (true, b2)

/-- A computable enumeration of a finite set of coordinates (the hash-set
iteration order of the source is unspecified and the uses are
order-independent, so any enumeration is a faithful model). -/
def cellList (s : Finset Pos) : List Pos :=
  ((s.image (fun p => Nat.pair p.1 p.2)).sort (· ≤ ·)).map Nat.unpair

/-- Clearing one captured chain inside `Board::make_move`:
`for (cx, cy) in self.chain_at(nx, ny) { self[(cx, cy)] = Stone::Empty }`. -/
def clearChain : List Pos → Board → Option Board
  | [], b => some b
  | (cx, cy) :: rest, b =>
    match b.set? cx cy Stone.Empty with
    | none => none
    | some b' => clearChain rest b'

/-- The capture `for` loop of `Board::make_move` over the (pre-computed)
neighbour list: re-reads each neighbour on the current board, captures
its chain when its sole liberty is the target. -/
def captureLoop (stone : Stone) (x y : Nat) :
    List Pos → Board → Option Board
  | [], b => some b
  | (nx, ny) :: rest, b =>
    match b.get? nx ny with
    | none => none
    | some c =>
      if c = stone.not then
        match b.liberties nx ny with
        | none => none
        | some libs =>
          if libs.card = 1 ∧ (x, y) ∈ libs then
            match b.chain_at nx ny with
            | none => none
            | some chain =>
              match clearChain (cellList chain) b with
              | none => none
              | some b' => captureLoop stone x y rest b'
          else captureLoop stone x y rest b
      else captureLoop stone x y rest b

/-- Rust `Board::make_move`. -/
def make_move (b : Board) (stone : Stone) (x y : Nat) :
    Option (Bool × Board) :=
  match b.get? x y with
  | none => none
  | some c =>
    if c ≠ Stone.Empty then
      some (false, b)
    else if stone = Stone.Empty then
      some (false, b)
    else
      match b.legal_move stone x y with
      | none => none
      | some r =>
        if ¬ r.1 then
          some (false, r.2)
        else
          match captureLoop stone x y (r.2.neighbours x y) r.2 with
          | none => none
          | some b2 =>
            match b2.set? x y stone with
            | none => none
            | some b3 => some (true, b3)

/-- Rust `Board::star_point`. -/
def star_point (b : Board) (x y : Nat) : Bool :=
  match b.size with
  | 9 => (x = 4 ∧ y = 4) ∨ ((x = 2 ∨ x = 6) ∧ (y = 2 ∨ y = 6))
  | 13 => (x = 6 ∧ y = 6) ∨ ((x = 3 ∨ x = 9) ∧ (y = 3 ∨ y = 9))
  | 19 => (x = 3 ∨ x = 9 ∨ x = 15) ∧ (y = 3 ∨ y = 9 ∨ y = 15)
  | _ => false

/-- The glyph a cell renders to in `impl fmt::Display for Board`. -/
def cellChar (b : Board) (x y : Nat) : Option Char := do
  let s ← b.state.get? (y * b.size + x)
  match s with
  | Stone.Empty =>
    if b.star_point x y then return '•' -- U+2022 BULLET
    else return Stone.Empty.char
  | st => return st.char

/-- One display row: glyphs each followed by a space, with the trailing
space popped off. -/
def renderRow (b : Board) (y : Nat) : Option (List Char) := do
  let cells ← (List.range b.size).mapM (fun x => b.cellChar x y)
  return ((cells.map (fun c => [c, ' '])).flatten).dropLast

/-- Rust `impl fmt::Display for Board`: rows joined by newlines. -/
def render (b : Board) : Option String := do
  let rows ← (List.range b.size).mapM (fun y => b.renderRow y)
  return String.mk (List.intercalate ['\n'] rows)

/-- The in-bounds cells of a board, as a finite set. -/
def univPos (b : Board) : Finset Pos :=
  Finset.range b.size ×ˢ Finset.range b.size
/-- One hop of same-colored adjacency: `q` is an in-bounds neighbour of `p`
holding stone `st`. -/
def Step (b : Board) (st : Stone) (p q : Pos) : Prop :=
  q ∈ b.neighbours p.1 p.2 ∧ b.get? q.1 q.2 = some st
/-- Same-colored connectivity from a seed: the chain relation the DFS
traversals compute. -/
def Reach (b : Board) (st : Stone) (p q : Pos) : Prop :=
  Relation.ReflTransGen (Step b st) p q
/-- The stack invariant that makes the chain DFS terminate: any element of
the worklist that has already been seen has all its same-colored
neighbours either seen or strictly above it on the stack. -/
def ChainQ (b : Board) (st : Stone) (seen : Finset Pos) (hor : List Pos) :
    Prop :=
  ∀ pre c post, hor = pre ++ c :: post → c ∈ seen →
    ∀ d, Step b st c d → d ∈ seen ∨ d ∈ pre
/-- Stack invariant for the liberties DFS: any same-colored, already-seen
worklist element has all its neighbours either seen or above it. -/
def LibQ (b : Board) (st : Stone) (seen : Finset Pos) (hor : List Pos) :
    Prop :=
  ∀ pre c post, hor = pre ++ c :: post → c ∈ seen →
    b.get? c.1 c.2 = some st →
    ∀ d ∈ b.neighbours c.1 c.2, d ∈ seen ∨ d ∈ pre
/-- The state of the capture loop: the current board `bc` agrees with the
pre-move board `b` outside the already-cleared set `D`, whose cells all
read `Empty`. -/
def Cleared (b : Board) (D : Set Pos) (bc : Board) : Prop :=
  bc.size = b.size ∧ bc.state.length = b.state.length ∧
  ∀ p : Pos, p ∈ b.univPos →
    (p ∈ D → bc.get? p.1 p.2 = some Stone.Empty) ∧
    (p ∉ D → bc.get? p.1 p.2 = b.get? p.1 p.2)
/-- The cleared set is a union of `st`-colored chains: every cell is an
in-bounds `st` stone of `b` and the set is closed under same-colored
reachability. -/
def DGood (b : Board) (st : Stone) (D : Set Pos) : Prop :=
  (∀ p ∈ D, b.get? p.1 p.2 = some st ∧ p ∈ b.univPos) ∧
  ∀ p ∈ D, ∀ q, Reach b st p q → q ∈ D
/-- A neighbour of the target triggers a capture exactly when it holds an
opposing stone whose chain's sole liberty (computed on the pre-placement
board) is the target. -/
def TrigN (b : Board) (s : Stone) (x y : Nat) (n : Pos) : Prop :=
  b.get? n.1 n.2 = some s.not ∧ b.liberties n.1 n.2 = some {(x, y)}
/-- The cells captured while processing the neighbour list `l`: the union
of the chains of the triggering neighbours. -/
def CapSet (b : Board) (s : Stone) (x y : Nat) (l : List Pos) : Set Pos :=
  fun p => ∃ n ∈ l, TrigN b s x y n ∧ Reach b s.not n p
/-- The cells `Board::make_move` captures: members of chains of adjacent
opposing stones whose sole liberty, on the pre-placement board, is the
target `(x, y)`. -/
def CapturedCell (b : Board) (s : Stone) (x y : Nat) (p : Pos) : Prop :=
  ∃ n ∈ b.neighbours x y, b.get? n.1 n.2 = some s.not ∧
    b.liberties n.1 n.2 = some {(x, y)} ∧
    ∃ C, b.chain_at n.1 n.2 = some C ∧ p ∈ C

/-- The data-model invariant (spec §3): the grid covers at least the
`size × size` cells the board's operations address.  `Board::new`,
`Board::with_size` and `Board::from_str` all establish it, and no
operation changes `state`'s length or `size`; every `Board` the Rust
program can construct satisfies it. -/
def WF (b : Board) : Prop := b.size * b.size ≤ b.state.length

end Board

/-- Rust `struct Player` from `src/game.rs`. -/
structure Player : Type where
  name : Option String := none
  rank : Option String := none
deriving DecidableEq, Repr

/-- Rust `struct Game` from `src/game.rs`. -/
structure Game : Type where
  board : Board := Board.new
  last_board : Option Board := none
  black : Player := {}
  white : Player := {}
deriving DecidableEq, Repr

namespace Game

/-- Rust `Game::new` (`Default` gives an empty 19×19 board and empty players). -/
def new : Game := {}

/-- Rust `Game::from_str`. -/
def from_str (s : String) : Game := { board := Board.from_str s }

/-- Rust `Game::make_move`: clone the board into a candidate, apply the board
move, enforce the ko rule against the previous board, commit on
success. -/
def make_move (g : Game) (stone : Stone) (x y : Nat) :
    Option (Bool × Game) :=
  match g.board.make_move stone x y with
  | none => none
  | some r =>
    if ¬ r.1 then
      some (false, g)
    else if g.last_board = some r.2 then
      some (false, g)
    else
      some (true, { g with last_board := some g.board, board := r.2 })

end Game

/-! ## Basic lemmas: stones, indexing, neighbours -/

namespace Stone

theorem not_ne_empty {s : Stone} (h : s ≠ Stone.Empty) : s.not ≠ Stone.Empty := by
  cases s <;> simp_all [Stone.not]

end Stone

namespace Board

theorem mem_univPos {b : Board} {p : Pos} :
    p ∈ b.univPos ↔ p.1 < b.size ∧ p.2 < b.size := by
  simp [univPos, Finset.mem_product]

theorem card_univPos (b : Board) : b.univPos.card = b.size * b.size := by
  simp [univPos]

theorem univPos_congr {b b' : Board} (h : b.size = b'.size) :
    b.univPos = b'.univPos := by
  simp [univPos, h]

theorem idx_lt {b : Board} {p : Pos} (h : p ∈ b.univPos) :
    p.2 * b.size + p.1 < b.size * b.size := by
  rcases mem_univPos.1 h with ⟨h1, h2⟩
  calc p.2 * b.size + p.1 < p.2 * b.size + b.size := by omega
    _ = (p.2 + 1) * b.size := by ring
    _ ≤ b.size * b.size := Nat.mul_le_mul_right _ (by omega)

theorem idx_inj {b : Board} {p q : Pos} (hp : p ∈ b.univPos)
    (hq : q ∈ b.univPos) (h : p.2 * b.size + p.1 = q.2 * b.size + q.1) :
    p = q := by
  rcases mem_univPos.1 hp with ⟨hp1, hp2⟩
  rcases mem_univPos.1 hq with ⟨hq1, hq2⟩
  have e1 : (p.2 * b.size + p.1) % b.size = p.1 := by
    rw [Nat.add_comm, Nat.add_mul_mod_self_right, Nat.mod_eq_of_lt hp1]
  have e2 : (q.2 * b.size + q.1) % b.size = q.1 := by
    rw [Nat.add_comm, Nat.add_mul_mod_self_right, Nat.mod_eq_of_lt hq1]
  have e3 : (p.2 * b.size + p.1) / b.size = p.2 := by
    rw [Nat.add_comm, Nat.add_mul_div_right _ _ (by omega : 0 < b.size),
      Nat.div_eq_of_lt hp1]
    omega
  have e4 : (q.2 * b.size + q.1) / b.size = q.2 := by
    rw [Nat.add_comm, Nat.add_mul_div_right _ _ (by omega : 0 < b.size),
      Nat.div_eq_of_lt hq1]
    omega
  have : p.1 = q.1 := by rw [← e1, ← e2, h]
  have : p.2 = q.2 := by rw [← e3, ← e4, h]
  exact Prod.ext (by omega) (by assumption)

theorem get?_eq_some {b : Board} {p : Pos} (hWF : b.WF) (hp : p ∈ b.univPos) :
    ∃ s, b.get? p.1 p.2 = some s := by
  have := idx_lt hp
  have hlen : p.2 * b.size + p.1 < b.state.length := lt_of_lt_of_le this hWF
  exact ⟨_, List.get?_eq_get hlen⟩

theorem get?_isSome {b : Board} {p : Pos} (hWF : b.WF) (hp : p ∈ b.univPos) :
    (b.get? p.1 p.2).isSome := by
  rcases get?_eq_some hWF hp with ⟨s, hs⟩
  simp [hs]

theorem set?_eq_some {b : Board} {p : Pos} (hWF : b.WF) (hp : p ∈ b.univPos)
    (s : Stone) : b.set? p.1 p.2 s =
      some { b with state := b.state.set (p.2 * b.size + p.1) s } := by
  have hlen : p.2 * b.size + p.1 < b.state.length :=
    lt_of_lt_of_le (idx_lt hp) hWF
  simp [set?, hlen]

theorem set?_size {b b' : Board} {x y : Nat} {s : Stone}
    (h : b.set? x y s = some b') : b'.size = b.size := by
  unfold set? at h
  split at h
  · cases h
    rfl
  · simp at h

theorem set?_length {b b' : Board} {x y : Nat} {s : Stone}
    (h : b.set? x y s = some b') : b'.state.length = b.state.length := by
  unfold set? at h
  split at h
  · cases h
    simp
  · simp at h

theorem set?_WF {b b' : Board} {x y : Nat} {s : Stone} (hWF : b.WF)
    (h : b.set? x y s = some b') : b'.WF := by
  unfold WF
  rw [set?_length h, set?_size h]
  exact hWF

theorem get?_set?_self {b b' : Board} {p : Pos} {s : Stone}
    (hp : p ∈ b.univPos) (h : b.set? p.1 p.2 s = some b') :
    b'.get? p.1 p.2 = some s := by
  unfold set? at h
  split at h
  case isTrue hlen =>
    cases h
    simp only [get?, set?_size, List.get?_set_eq_of_lt _ hlen]
  case isFalse => simp at h

theorem get?_set?_other {b b' : Board} {p q : Pos} {s : Stone}
    (hp : p ∈ b.univPos) (hq : q ∈ b.univPos) (hne : q ≠ p)
    (h : b.set? p.1 p.2 s = some b') : b'.get? q.1 q.2 = b.get? q.1 q.2 := by
  unfold set? at h
  split at h
  case isTrue hlen =>
    cases h
    have hidx : p.2 * b.size + p.1 ≠ q.2 * b.size + q.1 :=
      fun hcon => hne (idx_inj hq hp hcon.symm)
    simp only [get?, List.get?_set_ne _ _ hidx]
  case isFalse => simp at h

/-- Setting a cell to the value it already holds is the identity on lists. -/
theorem list_set_self {α : Type} {l : List α} {i : Nat} {a : α}
    (h : l.get? i = some a) : l.set i a = l := by
  induction l generalizing i with
  | nil => simp at h
  | cons x xs ih =>
    cases i with
    | zero => simp_all
    | succ j => simp_all

theorem neighbours_size_congr {b b' : Board} (h : b.size = b'.size)
    (x y : Nat) : b.neighbours x y = b'.neighbours x y := by
  simp [neighbours, h]

theorem mem_neighbours {b : Board} {x y : Nat} {q : Pos} :
    q ∈ b.neighbours x y ↔
      (0 < x ∧ q = (x - 1, y)) ∨ (0 < y ∧ q = (x, y - 1)) ∨
      (x < b.size - 1 ∧ q = (x + 1, y)) ∨ (y < b.size - 1 ∧ q = (x, y + 1)) := by
  simp [neighbours]

theorem neighbours_mem_univPos {b : Board} {p q : Pos}
    (hp : p ∈ b.univPos) (hq : q ∈ b.neighbours p.1 p.2) : q ∈ b.univPos := by
  rcases mem_univPos.1 hp with ⟨h1, h2⟩
  rcases mem_neighbours.1 hq with ⟨h, rfl⟩ | ⟨h, rfl⟩ | ⟨h, rfl⟩ | ⟨h, rfl⟩ <;>
    exact mem_univPos.2 ⟨by omega, by omega⟩

theorem not_mem_neighbours_self {b : Board} {p : Pos} :
    p ∉ b.neighbours p.1 p.2 := by
  intro h
  rcases mem_neighbours.1 h with ⟨h, he⟩ | ⟨h, he⟩ | ⟨h, he⟩ | ⟨h, he⟩ <;>
    · rw [Prod.ext_iff] at he
      omega

theorem neighbours_symm {b : Board} {p q : Pos} (hp : p ∈ b.univPos)
    (hq : q ∈ b.univPos) (h : q ∈ b.neighbours p.1 p.2) :
    p ∈ b.neighbours q.1 q.2 := by
  rcases mem_univPos.1 hp with ⟨hp1, hp2⟩
  rcases mem_univPos.1 hq with ⟨hq1, hq2⟩
  rcases mem_neighbours.1 h with ⟨h, rfl⟩ | ⟨h, rfl⟩ | ⟨h, rfl⟩ | ⟨h, rfl⟩ <;>
    refine mem_neighbours.2 ?_
  · right; right; left
    constructor
    · omega
    · rw [Prod.ext_iff]
      constructor <;> simp <;> omega
  · right; right; right
    constructor
    · omega
    · rw [Prod.ext_iff]
      constructor <;> simp <;> omega
  · left
    constructor
    · omega
    · rw [Prod.ext_iff]
      constructor <;> simp <;> omega
  · right; left
    constructor
    · omega
    · rw [Prod.ext_iff]
      constructor <;> simp <;> omega

theorem length_neighbours_le (b : Board) (x y : Nat) :
    (b.neighbours x y).length ≤ 4 := by
  unfold neighbours
  split <;> split <;> split <;> split <;> simp

/-! ## Connectivity: the step relation computed by the DFS loops -/

theorem Reach.refl' {b : Board} {st : Stone} {p : Pos} : Reach b st p p :=
  Relation.ReflTransGen.refl

theorem Reach_colored {b : Board} {st : Stone} {p q : Pos}
    (h : Reach b st p q) (hp : b.get? p.1 p.2 = some st) :
    b.get? q.1 q.2 = some st := by
  induction h with
  | refl => exact hp
  | tail _ hstep _ => exact hstep.2

theorem Reach_mem_univPos {b : Board} {st : Stone} {p q : Pos}
    (hp : p ∈ b.univPos) (h : Reach b st p q) : q ∈ b.univPos := by
  induction h with
  | refl => exact hp
  | tail _ hstep ih => exact neighbours_mem_univPos ih hstep.1

theorem Reach_symmetric {b : Board} {st : Stone} {p q : Pos}
    (hp : p ∈ b.univPos) (hcol : b.get? p.1 p.2 = some st)
    (h : Reach b st p q) : Reach b st q p := by
  induction h with
  | refl => exact Reach.refl'
  | tail hr hstep ih =>
    rename_i c d
    have hc : c ∈ b.univPos := Reach_mem_univPos hp hr
    have hd : d ∈ b.univPos := neighbours_mem_univPos hc hstep.1
    have hccol : b.get? c.1 c.2 = some st := Reach_colored hr hcol
    exact Relation.ReflTransGen.trans
      (Relation.ReflTransGen.single ⟨neighbours_symm hc hd hstep.1, hccol⟩) ih

/-- Two cells of the same chain reach exactly the same cells. -/
theorem Reach_congr {b : Board} {st : Stone} {p q : Pos}
    (hp : p ∈ b.univPos) (hcol : b.get? p.1 p.2 = some st)
    (hpq : Reach b st p q) :
    ∀ r, Reach b st q r ↔ Reach b st p r := by
  intro r
  constructor
  · exact fun h => Relation.ReflTransGen.trans hpq h
  · exact fun h => Relation.ReflTransGen.trans (Reach_symmetric hp hcol hpq) h

/-! ## The monadic filters of the DFS -/

theorem colorFilter_total {b : Board} (st : Stone) {l : List Pos}
    (h : ∀ q ∈ l, (b.get? q.1 q.2).isSome) :
    ∃ out, b.colorFilter st l = some out := by
  induction l with
  | nil => exact ⟨[], rfl⟩
  | cons hd tl ih =>
    obtain ⟨s, hs⟩ := Option.isSome_iff_exists.1 (h hd (by simp))
    obtain ⟨out, hout⟩ := ih (fun q hq => h q (by simp [hq]))
    obtain ⟨a, c⟩ := hd
    by_cases hcol : s = st
    · exact ⟨(a, c) :: out, by simp [colorFilter, hs, hout, hcol]⟩
    · exact ⟨out, by simp [colorFilter, hs, hout, hcol]⟩

theorem colorFilter_mem {b : Board} {st : Stone} {l out : List Pos}
    (h : b.colorFilter st l = some out) :
    ∀ q ∈ out, q ∈ l ∧ b.get? q.1 q.2 = some st := by
  induction l generalizing out with
  | nil =>
    simp only [colorFilter] at h
    cases h
    simp
  | cons hd tl ih =>
    obtain ⟨a, c⟩ := hd
    simp only [colorFilter, Option.bind_eq_bind, Option.bind_eq_some] at h
    obtain ⟨s, hs, tail, htail, hout⟩ := h
    intro q hq
    split at hout <;> cases hout
    · rcases List.mem_cons.1 hq with rfl | hqtl
      · exact ⟨by simp, by rename_i hcol; rw [hs, hcol]⟩
      · obtain ⟨h1, h2⟩ := ih htail q hqtl
        exact ⟨by simp [h1], h2⟩
    · obtain ⟨h1, h2⟩ := ih htail q hq
      exact ⟨by simp [h1], h2⟩

theorem colorFilter_mem_of {b : Board} {st : Stone} {l out : List Pos}
    (h : b.colorFilter st l = some out) :
    ∀ q ∈ l, b.get? q.1 q.2 = some st → q ∈ out := by
  induction l generalizing out with
  | nil => simp
  | cons hd tl ih =>
    obtain ⟨a, c⟩ := hd
    simp only [colorFilter, Option.bind_eq_bind, Option.bind_eq_some] at h
    obtain ⟨s, hs, tail, htail, hout⟩ := h
    intro q hq hcolq
    rcases List.mem_cons.1 hq with rfl | hqtl
    · rw [hs] at hcolq
      cases hcolq
      split at hout
      · cases hout
        simp
      · simp_all
    · have := ih htail q hqtl hcolq
      split at hout <;> cases hout <;> simp [this]

theorem colorFilter_length {b : Board} {st : Stone} {l out : List Pos}
    (h : b.colorFilter st l = some out) : out.length ≤ l.length := by
  induction l generalizing out with
  | nil =>
    simp only [colorFilter] at h
    cases h
    simp
  | cons hd tl ih =>
    obtain ⟨a, c⟩ := hd
    simp only [colorFilter, Option.bind_eq_bind, Option.bind_eq_some] at h
    obtain ⟨s, hs, tail, htail, hout⟩ := h
    have := ih htail
    split at hout <;> cases hout <;> simp <;> omega

theorem filterStone_total {b : Board} (st : Stone) (seen : Finset Pos)
    {l : List Pos} (h : ∀ q ∈ l, (b.get? q.1 q.2).isSome) :
    ∃ out, b.filterStone st seen l = some out := by
  induction l with
  | nil => exact ⟨[], rfl⟩
  | cons hd tl ih =>
    obtain ⟨s, hs⟩ := Option.isSome_iff_exists.1 (h hd (by simp))
    obtain ⟨out, hout⟩ := ih (fun q hq => h q (by simp [hq]))
    obtain ⟨a, c⟩ := hd
    by_cases hcol : s = st ∧ (a, c) ∉ seen
    · exact ⟨(a, c) :: out, by simp [filterStone, hs, hout, hcol]⟩
    · exact ⟨out, by simp [filterStone, hs, hout, if_neg hcol]⟩

theorem filterStone_mem {b : Board} {st : Stone} {seen : Finset Pos}
    {l out : List Pos} (h : b.filterStone st seen l = some out) :
    ∀ q ∈ out, q ∈ l ∧ b.get? q.1 q.2 = some st ∧ q ∉ seen := by
  induction l generalizing out with
  | nil =>
    simp only [filterStone] at h
    cases h
    simp
  | cons hd tl ih =>
    obtain ⟨a, c⟩ := hd
    simp only [filterStone, Option.bind_eq_bind, Option.bind_eq_some] at h
    obtain ⟨s, hs, tail, htail, hout⟩ := h
    intro q hq
    split at hout <;> cases hout
    · rcases List.mem_cons.1 hq with rfl | hqtl
      · rename_i hcol
        exact ⟨by simp, by rw [hs, hcol.1], hcol.2⟩
      · obtain ⟨h1, h2, h3⟩ := ih htail q hqtl
        exact ⟨by simp [h1], h2, h3⟩
    · obtain ⟨h1, h2, h3⟩ := ih htail q hq
      exact ⟨by simp [h1], h2, h3⟩

theorem filterStone_mem_of {b : Board} {st : Stone} {seen : Finset Pos}
    {l out : List Pos} (h : b.filterStone st seen l = some out) :
    ∀ q ∈ l, b.get? q.1 q.2 = some st → q ∉ seen → q ∈ out := by
  induction l generalizing out with
  | nil => simp
  | cons hd tl ih =>
    obtain ⟨a, c⟩ := hd
    simp only [filterStone, Option.bind_eq_bind, Option.bind_eq_some] at h
    obtain ⟨s, hs, tail, htail, hout⟩ := h
    intro q hq hcolq hseenq
    rcases List.mem_cons.1 hq with rfl | hqtl
    · rw [hs] at hcolq
      cases hcolq
      split at hout
      · cases hout
        simp
      · simp_all
    · have := ih htail q hqtl hcolq hseenq
      split at hout <;> cases hout <;> simp [this]

theorem filterStone_length {b : Board} {st : Stone} {seen : Finset Pos}
    {l out : List Pos} (h : b.filterStone st seen l = some out) :
    out.length ≤ l.length := by
  induction l generalizing out with
  | nil =>
    simp only [filterStone] at h
    cases h
    simp
  | cons hd tl ih =>
    obtain ⟨a, c⟩ := hd
    simp only [filterStone, Option.bind_eq_bind, Option.bind_eq_some] at h
    obtain ⟨s, hs, tail, htail, hout⟩ := h
    have := ih htail
    split at hout <;> cases hout <;> simp <;> omega

/-! ## Correctness of the chain DFS loop -/

theorem chainLoop_sound {b : Board} {st : Stone} (root : Pos) :
    ∀ {fuel : Nat} {seen : Finset Pos} {hor : List Pos} {S : Finset Pos},
    (∀ q ∈ seen, Reach b st root q) →
    (∀ q ∈ hor, Reach b st root q ∧ b.get? q.1 q.2 = some st) →
    b.chainLoop st fuel seen hor = some S →
    ∀ q ∈ S, Reach b st root q := by
  intro fuel
  induction fuel with
  | zero =>
    intro seen hor S hseen hhor h
    cases hor with
    | nil =>
      cases h
      exact hseen
    | cons hd tl => simp [chainLoop] at h
  | succ f ih =>
    intro seen hor S hseen hhor h
    cases hor with
    | nil =>
      cases h
      exact hseen
    | cons hd tl =>
      obtain ⟨nx, ny⟩ := hd
      simp only [chainLoop, Option.bind_eq_bind, Option.bind_eq_some] at h
      obtain ⟨pushes, hps, hrec⟩ := h
      have hhd := hhor (nx, ny) (by simp)
      refine ih ?_ ?_ hrec
      · intro q hq
        rcases Finset.mem_insert.1 hq with rfl | hq
        · exact hhd.1
        · exact hseen q hq
      · intro q hq
        rcases List.mem_append.1 hq with hq | hq
        · obtain ⟨hmem, hcol, _⟩ := filterStone_mem hps q (List.mem_reverse.1 hq)

          exact ⟨Relation.ReflTransGen.tail hhd.1 ⟨hmem, hcol⟩, hcol⟩
        · exact hhor q (by simp [hq])

theorem chainLoop_closed {b : Board} {st : Stone} (root : Pos) :
    ∀ {fuel : Nat} {seen : Finset Pos} {hor : List Pos} {S : Finset Pos},
    root ∈ seen →
    (∀ c ∈ seen, ∀ d, Step b st c d → d ∈ seen ∨ d ∈ hor) →
    b.chainLoop st fuel seen hor = some S →
    root ∈ S ∧ ∀ c ∈ S, ∀ d, Step b st c d → d ∈ S := by
  intro fuel
  induction fuel with
  | zero =>
    intro seen hor S hroot hcl h
    cases hor with
    | nil =>
      cases h
      refine ⟨hroot, fun c hc d hd => ?_⟩
      rcases hcl c hc d hd with h | h
      · exact h
      · simp at h
    | cons hd tl => simp [chainLoop] at h
  | succ f ih =>
    intro seen hor S hroot hcl h
    cases hor with
    | nil =>
      cases h
      refine ⟨hroot, fun c hc d hd => ?_⟩
      rcases hcl c hc d hd with h | h
      · exact h
      · simp at h
    | cons hd tl =>
      obtain ⟨nx, ny⟩ := hd
      simp only [chainLoop, Option.bind_eq_bind, Option.bind_eq_some] at h
      obtain ⟨pushes, hps, hrec⟩ := h
      refine ih (Finset.mem_insert_of_mem hroot) ?_ hrec
      intro c hc d hd
      rcases Finset.mem_insert.1 hc with rfl | hc
      · by_cases hdseen : d ∈ insert (nx, ny) seen
        · exact Or.inl hdseen
        · right
          refine List.mem_append.2 (Or.inl (List.mem_reverse.2 ?_))
          exact filterStone_mem_of hps d hd.1 hd.2 hdseen
      · rcases hcl c hc d hd with hds | hdh
        · exact Or.inl (Finset.mem_insert_of_mem hds)
        · rcases List.mem_cons.1 hdh with rfl | hdt
          · exact Or.inl (Finset.mem_insert_self _ _)
          · exact Or.inr (by simp [hdt])

theorem chainLoop_total {b : Board} {st : Stone} (hWF : b.WF) :
    ∀ (fuel : Nat) (seen : Finset Pos) (hor : List Pos),
    (∀ q ∈ hor, q ∈ b.univPos) → ChainQ b st seen hor →
    5 * (b.univPos \ seen).card + hor.length < fuel →
    ∃ S, b.chainLoop st fuel seen hor = some S := by
  intro fuel
  induction fuel with
  | zero =>
    intro seen hor hU hQ hΦ
    omega
  | succ f ih =>
    intro seen hor hU hQ hΦ
    cases hor with
    | nil => exact ⟨seen, rfl⟩
    | cons hd tl =>
      obtain ⟨nx, ny⟩ := hd
      have hhd : (nx, ny) ∈ b.univPos := hU _ (by simp)
      obtain ⟨pushes, hps⟩ :=
        filterStone_total st (insert (nx, ny) seen)
          (fun q hq => get?_isSome hWF (neighbours_mem_univPos hhd hq))
      have hplen : pushes.length ≤ 4 :=
        le_trans (filterStone_length hps) (length_neighbours_le b nx ny)
      by_cases hmem : (nx, ny) ∈ seen
      · have hseen' : insert (nx, ny) seen = seen := Finset.insert_eq_self.2 hmem
        have hpushes : pushes = [] := by
          rw [List.eq_nil_iff_forall_not_mem]
          intro q hq
          obtain ⟨hqn, hqc, hqs⟩ := filterStone_mem hps q hq
          rcases hQ [] (nx, ny) tl rfl hmem q ⟨hqn, hqc⟩ with h | h
          · exact hqs (Finset.mem_insert_of_mem h)
          · simp at h
        have hQ' : ChainQ b st seen tl := by
          intro pre c post hdec hc d hd
          rcases hQ ((nx, ny) :: pre) c post (by simp [hdec]) hc d hd with h | h
          · exact Or.inl h
          · rcases List.mem_cons.1 h with rfl | h
            · exact Or.inl hmem
            · exact Or.inr h
        obtain ⟨S, hS⟩ := ih seen tl (fun q hq => hU q (by simp [hq]))
          hQ' (by simp at hΦ; omega)
        refine ⟨S, ?_⟩
        simp only [chainLoop, Option.bind_eq_bind, hps, Option.some_bind]
        rw [hpushes, hseen']
        simpa using hS
      · have hcard : ((b.univPos \ insert (nx, ny) seen)).card
            = (b.univPos \ seen).card - 1 := by
          rw [Finset.sdiff_insert]
          exact Finset.card_erase_of_mem (Finset.mem_sdiff.2 ⟨hhd, hmem⟩)
        have hcard0 : 0 < (b.univPos \ seen).card :=
          Finset.card_pos.2 ⟨(nx, ny), Finset.mem_sdiff.2 ⟨hhd, hmem⟩⟩
        have hU' : ∀ q ∈ pushes.reverse ++ tl, q ∈ b.univPos := by
          intro q hq
          rcases List.mem_append.1 hq with hq | hq
          · exact neighbours_mem_univPos hhd
              (filterStone_mem hps q (List.mem_reverse.1 hq)).1
          · exact hU q (by simp [hq])
        have hQ' : ChainQ b st (insert (nx, ny) seen) (pushes.reverse ++ tl) := by
          intro pre c post hdec hc d hd
          rcases List.append_eq_append_iff.1 hdec with ⟨a', ha1, ha2⟩ | ⟨c', hc1, hc2⟩
          · -- `c` sits inside `tl`, below all the fresh pushes
            rcases Finset.mem_insert.1 hc with rfl | hc
            · by_cases hdseen : d ∈ insert (nx, ny) seen
              · exact Or.inl hdseen
              · refine Or.inr ?_
                rw [ha1]
                refine List.mem_append.2 (Or.inl (List.mem_reverse.2 ?_))
                exact filterStone_mem_of hps d hd.1 hd.2 hdseen
            · rcases hQ ((nx, ny) :: a') c post (by simp [ha2]) hc d hd with h | h
              · exact Or.inl (Finset.mem_insert_of_mem h)
              · rcases List.mem_cons.1 h with rfl | h
                · exact Or.inl (Finset.mem_insert_self _ _)
                · exact Or.inr (by simp [ha1, h])
          · -- `c` sits inside the freshly pushed elements, or right below them
            cases c' with
            | nil =>
              simp only [List.append_nil] at hc1
              have hc2' : c :: post = tl := by simpa using hc2
              rcases Finset.mem_insert.1 hc with rfl | hc
              · by_cases hdseen : d ∈ insert (nx, ny) seen
                · exact Or.inl hdseen
                · refine Or.inr ?_
                  rw [← hc1]
                  refine List.mem_reverse.2 ?_
                  exact filterStone_mem_of hps d hd.1 hd.2 hdseen
              · rcases hQ [(nx, ny)] c post (by simp [← hc2']) hc d hd with h | h
                · exact Or.inl (Finset.mem_insert_of_mem h)
                · rcases List.mem_cons.1 h with rfl | h
                  · exact Or.inl (Finset.mem_insert_self _ _)
                  · simp at h
            | cons e c'' =>
              have hce : c = e := by
                have := hc2
                simp only [List.cons_append] at this
                exact (List.cons_eq_cons.1 this).1
              have : e ∈ pushes.reverse := by
                rw [hc1]
                simp
              obtain ⟨_, _, hns⟩ := filterStone_mem hps e (List.mem_reverse.1 this)
              exact absurd (hce ▸ hc) hns
        obtain ⟨S, hS⟩ := ih (insert (nx, ny) seen) (pushes.reverse ++ tl) hU' hQ' (by
          simp only [List.length_append, List.length_reverse, List.length_cons] at *
          omega)
        refine ⟨S, ?_⟩
        simp only [chainLoop, Option.bind_eq_bind, hps, Option.some_bind]
        exact hS

/-- Full characterization of `Board::chain_at` on a stone-holding in-bounds
cell of a well-formed board: it returns the connected same-colored
component of the seed. -/
theorem chain_at_spec {b : Board} {st : Stone} {x y : Nat}
    (hWF : b.WF) (hx : x < b.size) (hy : y < b.size)
    (hcol : b.get? x y = some st) (hst : st ≠ Stone.Empty) :
    ∃ S, b.chain_at x y = some S ∧ ∀ q, q ∈ S ↔ Reach b st (x, y) q := by
  have hroot : ((x, y) : Pos) ∈ b.univPos := mem_univPos.2 ⟨hx, hy⟩
  obtain ⟨init, hinit⟩ := colorFilter_total st
    (fun q hq => get?_isSome hWF (neighbours_mem_univPos hroot hq))
  have hU : ∀ q ∈ init.reverse, q ∈ b.univPos := by
    intro q hq
    exact neighbours_mem_univPos hroot (colorFilter_mem hinit q (List.mem_reverse.1 hq)).1
  have hQ : ChainQ b st (insert (x, y) ∅) init.reverse := by
    intro pre c post hdec hc d hd
    rcases Finset.mem_insert.1 hc with rfl | hc
    · exfalso
      have hmm : ((x, y) : Pos) ∈ init.reverse := by
        rw [hdec]
        simp
      exact not_mem_neighbours_self
        (colorFilter_mem hinit _ (List.mem_reverse.1 hmm)).1
    · simp at hc
  have hΦ : 5 * (b.univPos \ insert (x, y) ∅).card + init.reverse.length
      < b.dfsFuel := by
    have h1 : (b.univPos \ insert (x, y) ∅).card
        = b.univPos.card - 1 := by
      rw [Finset.card_sdiff (by simp [hroot])]
      simp
    have h2 : init.length ≤ 4 :=
      le_trans (colorFilter_length hinit) (length_neighbours_le b x y)
    have h3 : 1 ≤ b.size * b.size := Nat.one_le_iff_ne_zero.2 (by
      have : 0 < b.size := by omega
      positivity)
    rw [h1, card_univPos]
    simp only [List.length_reverse]
    unfold dfsFuel
    omega
  obtain ⟨S, hS⟩ := chainLoop_total hWF b.dfsFuel _ _ hU hQ hΦ
  refine ⟨S, ?_, ?_⟩
  · simp only [chain_at, hcol, Option.bind_eq_bind, Option.some_bind,
      if_neg hst, hinit]
    simpa using hS
  · have hsound := chainLoop_sound ((x, y) : Pos)
      (fun q hq => by
        rcases Finset.mem_insert.1 hq with rfl | hq
        · exact Reach.refl'
        · simp at hq)
      (fun q hq => by
        obtain ⟨h1, h2⟩ := colorFilter_mem hinit q (List.mem_reverse.1 hq)
        exact ⟨Relation.ReflTransGen.single ⟨h1, h2⟩, h2⟩)
      hS
    have hclosed := chainLoop_closed ((x, y) : Pos)
      (Finset.mem_insert_self _ _)
      (fun c hc d hd => by
        rcases Finset.mem_insert.1 hc with rfl | hc
        · exact Or.inr (List.mem_reverse.2
            (colorFilter_mem_of hinit d hd.1 hd.2))
        · simp at hc)
      hS
    intro q
    constructor
    · exact hsound q
    · intro hr
      induction hr with
      | refl => exact hclosed.1
      | tail hr hstep ih => exact hclosed.2 _ ih _ hstep

/-- Rust `Board::chain_at` on an empty cell returns the empty set. -/
theorem chain_at_empty {b : Board} {x y : Nat}
    (h : b.get? x y = some Stone.Empty) : b.chain_at x y = some ∅ := by
  simp [chain_at, h]

/-! ## Correctness of the liberties DFS loop -/

theorem libLoop_sound {b : Board} {st : Stone} (root : Pos) :
    ∀ {fuel : Nat} {seen libs : Finset Pos} {hor : List Pos} {L : Finset Pos},
    (∀ d ∈ libs, b.get? d.1 d.2 = some Stone.Empty ∧
      ∃ c, Reach b st root c ∧ d ∈ b.neighbours c.1 c.2) →
    (∀ q ∈ hor, ∃ c, Reach b st root c ∧ q ∈ b.neighbours c.1 c.2) →
    b.libLoop st fuel seen libs hor = some L →
    ∀ d ∈ L, b.get? d.1 d.2 = some Stone.Empty ∧
      ∃ c, Reach b st root c ∧ d ∈ b.neighbours c.1 c.2 := by
  intro fuel
  induction fuel with
  | zero =>
    intro seen libs hor L hlibs hhor h
    cases hor with
    | nil =>
      cases h
      exact hlibs
    | cons hd tl => simp [libLoop] at h
  | succ f ih =>
    intro seen libs hor L hlibs hhor h
    cases hor with
    | nil =>
      cases h
      exact hlibs
    | cons hd tl =>
      obtain ⟨nx, ny⟩ := hd
      simp only [libLoop, Option.bind_eq_bind, Option.bind_eq_some] at h
      obtain ⟨s, hs, hrec⟩ := h
      have hhd := hhor (nx, ny) (by simp)
      have hlibs' : ∀ d ∈ (if s = Stone.Empty
          then insert ((nx, ny) : Pos) libs else libs),
          b.get? d.1 d.2 = some Stone.Empty ∧
            ∃ c, Reach b st root c ∧ d ∈ b.neighbours c.1 c.2 := by
        split
        · intro d hd
          rcases Finset.mem_insert.1 hd with rfl | hd
          · rename_i hse
            exact ⟨hse ▸ hs, hhd⟩
          · exact hlibs d hd
        · exact hlibs
      split at hrec
      · rename_i hsst
        refine ih hlibs' ?_ hrec
        intro q hq
        rcases List.mem_append.1 hq with hq | hq
        · obtain ⟨c, hrc, hnb⟩ := hhd
          have hreach : Reach b st root (nx, ny) :=
            Relation.ReflTransGen.tail hrc ⟨hnb, hsst ▸ hs⟩
          exact ⟨(nx, ny), hreach,
            (List.mem_filter.1 (List.mem_reverse.1 hq)).1⟩
        · exact hhor q (by simp [hq])
      · refine ih hlibs' ?_ hrec
        intro q hq
        exact hhor q (by simp [hq])

theorem libLoop_complete {b : Board} {st : Stone} (root : Pos) :
    ∀ {fuel : Nat} {seen libs : Finset Pos} {hor : List Pos} {L : Finset Pos},
    root ∈ seen →
    (∀ c ∈ seen, b.get? c.1 c.2 = some st →
      ∀ d ∈ b.neighbours c.1 c.2, d ∈ seen ∨ d ∈ hor) →
    (∀ d ∈ seen, b.get? d.1 d.2 = some Stone.Empty → d ∈ libs) →
    b.libLoop st fuel seen libs hor = some L →
    ∃ S : Finset Pos, root ∈ S ∧
      (∀ c ∈ S, b.get? c.1 c.2 = some st →
        ∀ d ∈ b.neighbours c.1 c.2, d ∈ S) ∧
      (∀ d ∈ S, b.get? d.1 d.2 = some Stone.Empty → d ∈ L) := by
  intro fuel
  induction fuel with
  | zero =>
    intro seen libs hor L hroot hcl hlib h
    cases hor with
    | nil =>
      cases h
      refine ⟨seen, hroot, fun c hc hcol d hd => ?_, hlib⟩
      rcases hcl c hc hcol d hd with h | h
      · exact h
      · simp at h
    | cons hd tl => simp [libLoop] at h
  | succ f ih =>
    intro seen libs hor L hroot hcl hlib h
    cases hor with
    | nil =>
      cases h
      refine ⟨seen, hroot, fun c hc hcol d hd => ?_, hlib⟩
      rcases hcl c hc hcol d hd with h | h
      · exact h
      · simp at h
    | cons hd tl =>
      obtain ⟨nx, ny⟩ := hd
      simp only [libLoop, Option.bind_eq_bind, Option.bind_eq_some] at h
      obtain ⟨s, hs, hrec⟩ := h
      have hroot' : root ∈ insert ((nx, ny) : Pos) seen :=
        Finset.mem_insert_of_mem hroot
      have hlib' : ∀ d ∈ insert ((nx, ny) : Pos) seen,
          b.get? d.1 d.2 = some Stone.Empty →
          d ∈ (if s = Stone.Empty then insert ((nx, ny) : Pos) libs else libs) := by
        intro d hd hde
        rcases Finset.mem_insert.1 hd with rfl | hd
        · have hse : s = Stone.Empty := by
            rw [hs] at hde
            exact (Option.some_inj.1 hde).symm ▸ rfl
          rw [if_pos hse]
          exact Finset.mem_insert_self _ _
        · have := hlib d hd hde
          split
          · exact Finset.mem_insert_of_mem this
          · exact this
      split at hrec
      · rename_i hsst
        refine ih hroot' ?_ hlib' hrec
        intro c hc hcol d hd
        rcases Finset.mem_insert.1 hc with rfl | hc
        · by_cases hdseen : d ∈ insert (nx, ny) seen
          · exact Or.inl hdseen
          · refine Or.inr (List.mem_append.2 (Or.inl ?_))
            exact List.mem_reverse.2 (List.mem_filter.2 ⟨hd, by simp [hdseen]⟩)
        · rcases hcl c hc hcol d hd with hds | hdh
          · exact Or.inl (Finset.mem_insert_of_mem hds)
          · rcases List.mem_cons.1 hdh with rfl | hdt
            · exact Or.inl (Finset.mem_insert_self _ _)
            · exact Or.inr (by simp [hdt])
      · rename_i hsst
        refine ih hroot' ?_ hlib' hrec
        intro c hc hcol d hd
        rcases Finset.mem_insert.1 hc with rfl | hc
        · rw [hs] at hcol
          exact absurd (Option.some_inj.1 hcol) hsst
        · rcases hcl c hc hcol d hd with hds | hdh
          · exact Or.inl (Finset.mem_insert_of_mem hds)
          · rcases List.mem_cons.1 hdh with rfl | hdt
            · exact Or.inl (Finset.mem_insert_self _ _)
            · exact Or.inr (by simp [hdt])

theorem libLoop_total {b : Board} {st : Stone} (hWF : b.WF) :
    ∀ (fuel : Nat) (seen libs : Finset Pos) (hor : List Pos),
    (∀ q ∈ hor, q ∈ b.univPos) → LibQ b st seen hor →
    5 * (b.univPos \ seen).card + hor.length < fuel →
    ∃ L, b.libLoop st fuel seen libs hor = some L := by
  intro fuel
  induction fuel with
  | zero =>
    intro seen libs hor hU hQ hΦ
    omega
  | succ f ih =>
    intro seen libs hor hU hQ hΦ
    cases hor with
    | nil => exact ⟨libs, rfl⟩
    | cons hd tl =>
      obtain ⟨nx, ny⟩ := hd
      have hhd : (nx, ny) ∈ b.univPos := hU _ (by simp)
      obtain ⟨s, hs⟩ := get?_eq_some hWF hhd
      set seen' := insert ((nx, ny) : Pos) seen with hseendef
      set libs' := (if s = Stone.Empty then insert ((nx, ny) : Pos) libs else libs)
        with hlibsdef
      by_cases hsst : s = st
      · by_cases hmem : (nx, ny) ∈ seen
        · have hseq : seen' = seen := Finset.insert_eq_self.2 hmem
          have hfilter : (b.neighbours nx ny).filter (fun p => p ∉ seen') = [] := by
            rw [List.eq_nil_iff_forall_not_mem]
            intro q hq
            obtain ⟨hqn, hqs⟩ := List.mem_filter.1 hq
            rcases hQ [] (nx, ny) tl rfl hmem (hsst ▸ hs) q hqn with h | h
            · simp [hseq, h] at hqs
            · simp at h
          have hQ' : LibQ b st seen tl := by
            intro pre c post hdec hc hcol d hd
            rcases hQ ((nx, ny) :: pre) c post (by simp [hdec]) hc hcol d hd with h | h
            · exact Or.inl h
            · rcases List.mem_cons.1 h with rfl | h
              · exact Or.inl hmem
              · exact Or.inr h
          obtain ⟨L, hL⟩ := ih seen libs' tl (fun q hq => hU q (by simp [hq]))
            hQ' (by simp at hΦ; omega)
          refine ⟨L, ?_⟩
          simp only [libLoop, Option.bind_eq_bind, hs, Option.some_bind,
            if_pos hsst]
          rw [hfilter]
          rw [hseendef] at hseq
          rw [hseq]
          simpa [hlibsdef] using hL
        · have hcard : ((b.univPos \ seen')).card
              = (b.univPos \ seen).card - 1 := by
            rw [hseendef, Finset.sdiff_insert]
            exact Finset.card_erase_of_mem (Finset.mem_sdiff.2 ⟨hhd, hmem⟩)
          have hcard0 : 0 < (b.univPos \ seen).card :=
            Finset.card_pos.2 ⟨(nx, ny), Finset.mem_sdiff.2 ⟨hhd, hmem⟩⟩
          set pushes := ((b.neighbours nx ny).filter (fun p => p ∉ seen')).reverse
            with hpushdef
          have hplen : pushes.length ≤ 4 := by
            rw [hpushdef]
            simp only [List.length_reverse]
            exact le_trans (List.length_filter_le _ _) (length_neighbours_le b nx ny)
          have hU' : ∀ q ∈ pushes ++ tl, q ∈ b.univPos := by
            intro q hq
            rcases List.mem_append.1 hq with hq | hq
            · exact neighbours_mem_univPos hhd
                (List.mem_filter.1 (List.mem_reverse.1 hq)).1
            · exact hU q (by simp [hq])
          have hQ' : LibQ b st seen' (pushes ++ tl) := by
            intro pre c post hdec hc hcol d hd
            rcases List.append_eq_append_iff.1 hdec with ⟨a', ha1, ha2⟩ | ⟨c', hc1, hc2⟩
            · rcases Finset.mem_insert.1 hc with rfl | hc
              · by_cases hdseen : d ∈ seen'
                · exact Or.inl hdseen
                · refine Or.inr ?_
                  rw [ha1]
                  refine List.mem_append.2 (Or.inl ?_)
                  exact List.mem_reverse.2 (List.mem_filter.2 ⟨hd, by simp [hdseen]⟩)
              · rcases hQ ((nx, ny) :: a') c post (by simp [ha2]) hc hcol d hd with h | h
                · exact Or.inl (Finset.mem_insert_of_mem h)
                · rcases List.mem_cons.1 h with rfl | h
                  · exact Or.inl (Finset.mem_insert_self _ _)
                  · exact Or.inr (by simp [ha1, h])
            · cases c' with
              | nil =>
                simp only [List.append_nil] at hc1
                have hc2' : c :: post = tl := by simpa using hc2
                rcases Finset.mem_insert.1 hc with rfl | hc
                · by_cases hdseen : d ∈ seen'
                  · exact Or.inl hdseen
                  · refine Or.inr ?_
                    rw [← hc1]
                    exact List.mem_reverse.2 (List.mem_filter.2 ⟨hd, by simp [hdseen]⟩)
                · rcases hQ [(nx, ny)] c post (by simp [← hc2']) hc hcol d hd with h | h
                  · exact Or.inl (Finset.mem_insert_of_mem h)
                  · rcases List.mem_cons.1 h with rfl | h
                    · exact Or.inl (Finset.mem_insert_self _ _)
                    · simp at h
              | cons e c'' =>
                have hce : c = e := by
                  have := hc2
                  simp only [List.cons_append] at this
                  exact (List.cons_eq_cons.1 this).1
                have : e ∈ pushes := by
                  rw [hc1]
                  simp
                have hns := (List.mem_filter.1 (List.mem_reverse.1 this)).2
                rw [← hce] at hns
                simp only [decide_not, Bool.not_eq_true', decide_eq_false_iff_not] at hns
                exact absurd hc hns
          obtain ⟨L, hL⟩ := ih seen' libs' (pushes ++ tl) hU' hQ' (by
            simp only [List.length_append, List.length_cons] at *
            omega)
          refine ⟨L, ?_⟩
          simp only [libLoop, Option.bind_eq_bind, hs, Option.some_bind,
            if_pos hsst]
          exact hL
      · -- popped cell is not the chain's color: no pushes at all
        have hQ' : LibQ b st seen' tl := by
          intro pre c post hdec hc hcol d hd
          rcases Finset.mem_insert.1 hc with rfl | hc
          · rw [hs] at hcol
            exact absurd (Option.some_inj.1 hcol) hsst
          · rcases hQ ((nx, ny) :: pre) c post (by simp [hdec]) hc hcol d hd with h | h
            · exact Or.inl (Finset.mem_insert_of_mem h)
            · rcases List.mem_cons.1 h with rfl | h
              · exact Or.inl (Finset.mem_insert_self _ _)
              · exact Or.inr h
        have hΦ' : 5 * (b.univPos \ seen').card + tl.length < f := by
          by_cases hmem : (nx, ny) ∈ seen
          · rw [hseendef, Finset.insert_eq_self.2 hmem]
            simp only [List.length_cons] at hΦ
            omega
          · have hcard : ((b.univPos \ seen')).card
                = (b.univPos \ seen).card - 1 := by
              rw [hseendef, Finset.sdiff_insert]
              exact Finset.card_erase_of_mem (Finset.mem_sdiff.2 ⟨hhd, hmem⟩)
            have hcard0 : 0 < (b.univPos \ seen).card :=
              Finset.card_pos.2 ⟨(nx, ny), Finset.mem_sdiff.2 ⟨hhd, hmem⟩⟩
            simp only [List.length_cons] at hΦ
            omega
        obtain ⟨L, hL⟩ := ih seen' libs' tl (fun q hq => hU q (by simp [hq]))
          hQ' hΦ'
        refine ⟨L, ?_⟩
        simp only [libLoop, Option.bind_eq_bind, hs, Option.some_bind,
          if_neg hsst]
        exact hL

/-- Full characterization of `Board::liberties` on a stone-holding
in-bounds cell of a well-formed board: it returns the set of empty cells
adjacent to the seed's chain. -/
theorem liberties_spec {b : Board} {st : Stone} {x y : Nat}
    (hWF : b.WF) (hx : x < b.size) (hy : y < b.size)
    (hcol : b.get? x y = some st) (hst : st ≠ Stone.Empty) :
    ∃ L, b.liberties x y = some L ∧ ∀ d, d ∈ L ↔
      (b.get? d.1 d.2 = some Stone.Empty ∧
        ∃ c, Reach b st (x, y) c ∧ d ∈ b.neighbours c.1 c.2) := by
  have hroot : ((x, y) : Pos) ∈ b.univPos := mem_univPos.2 ⟨hx, hy⟩
  have hU : ∀ q ∈ (b.neighbours x y).reverse, q ∈ b.univPos := by
    intro q hq
    exact neighbours_mem_univPos hroot (List.mem_reverse.1 hq)
  have hQ : LibQ b st (insert (x, y) ∅) (b.neighbours x y).reverse := by
    intro pre c post hdec hc hcol' d hd
    rcases Finset.mem_insert.1 hc with rfl | hc
    · exfalso
      have hmm : ((x, y) : Pos) ∈ (b.neighbours x y).reverse := by
        rw [hdec]
        simp
      exact not_mem_neighbours_self (List.mem_reverse.1 hmm)
    · simp at hc
  have hΦ : 5 * (b.univPos \ insert (x, y) ∅).card
      + (b.neighbours x y).reverse.length < b.dfsFuel := by
    have h1 : (b.univPos \ insert (x, y) ∅).card = b.univPos.card - 1 := by
      rw [Finset.card_sdiff (by simp [hroot])]
      simp
    have h2 : (b.neighbours x y).length ≤ 4 := length_neighbours_le b x y
    have h3 : 1 ≤ b.size * b.size := Nat.one_le_iff_ne_zero.2 (by
      have : 0 < b.size := by omega
      positivity)
    rw [h1, card_univPos]
    simp only [List.length_reverse]
    unfold dfsFuel
    omega
  obtain ⟨L, hL⟩ := libLoop_total hWF b.dfsFuel _ ∅ _ hU hQ hΦ
  refine ⟨L, ?_, ?_⟩
  · simp only [liberties, hcol, Option.bind_eq_bind, Option.some_bind,
      if_neg hst]
    simpa using hL
  · have hsound := libLoop_sound ((x, y) : Pos)
      (fun d hd => by simp at hd)
      (fun q hq => ⟨(x, y), Reach.refl', List.mem_reverse.1 hq⟩)
      hL
    obtain ⟨S, hrootS, hclS, hcovS⟩ := libLoop_complete ((x, y) : Pos)
      (Finset.mem_insert_self _ _)
      (fun c hc hcol' d hd => by
        rcases Finset.mem_insert.1 hc with rfl | hc
        · exact Or.inr (List.mem_reverse.2 hd)
        · simp at hc)
      (fun d hd hde => by
        rcases Finset.mem_insert.1 hd with rfl | hd
        · rw [hcol] at hde
          exact absurd (Option.some_inj.1 hde) hst
        · simp at hd)
      hL
    have hreachS : ∀ q, Reach b st (x, y) q → q ∈ S := by
      intro q hq
      induction hq with
      | refl => exact hrootS
      | tail hr hstep ih =>
        exact hclS _ ih (Reach_colored hr hcol) _ hstep.1
    intro d
    constructor
    · exact hsound d
    · rintro ⟨hde, c, hrc, hnb⟩
      exact hcovS d (hclS c (hreachS c hrc) (Reach_colored hrc hcol) d hnb) hde

/-- Rust `Board::liberties` on an empty cell returns the empty set. -/
theorem liberties_empty {b : Board} {x y : Nat}
    (h : b.get? x y = some Stone.Empty) : b.liberties x y = some ∅ := by
  simp [liberties, h]

/-! ## The legality check -/

/-- The test `libs.len() == 1 && *libs.iter().next().unwrap() == (x, y)`
holds exactly when the liberty set is the singleton of the target. -/
theorem card_one_mem_iff {L : Finset Pos} {p : Pos} :
    (L.card = 1 ∧ p ∈ L) ↔ L = {p} := by
  constructor
  · rintro ⟨h1, h2⟩
    obtain ⟨a, ha⟩ := Finset.card_eq_one.1 h1
    subst ha
    rw [Finset.mem_singleton.1 h2]
  · rintro rfl
    simp

theorem set?_inv {b b' : Board} {x y : Nat} {s : Stone}
    (h : b.set? x y s = some b') :
    y * b.size + x < b.state.length ∧
      b' = { b with state := b.state.set (y * b.size + x) s } := by
  unfold set? at h
  split at h
  · cases h
    exact ⟨by assumption, rfl⟩
  · simp at h

theorem captureCheck_total {b : Board} {st : Stone} {x y : Nat}
    (hWF : b.WF) (hst : st ≠ Stone.Empty) :
    ∀ {l : List Pos}, (∀ q ∈ l, q ∈ b.univPos) →
    ∃ r, b.captureCheck st x y l = some r := by
  intro l
  induction l with
  | nil => exact fun _ => ⟨false, rfl⟩
  | cons hd tl ih =>
    intro hl
    have hhd : hd ∈ b.univPos := hl hd (by simp)
    obtain ⟨c, hc⟩ := get?_eq_some hWF hhd
    obtain ⟨rt, hrt⟩ := ih (fun q hq => hl q (by simp [hq]))
    obtain ⟨a, e⟩ := hd
    by_cases hop : c = st.not
    · have hmem := mem_univPos.1 hhd
      obtain ⟨libs, hlibs, _⟩ := liberties_spec hWF hmem.1 hmem.2
        (hop ▸ hc) (Stone.not_ne_empty hst)
      by_cases hcond : libs.card = 1 ∧ (x, y) ∈ libs
      · exact ⟨true, by simp [captureCheck, hc, hop, hlibs, hcond]⟩
      · exact ⟨rt, by simp [captureCheck, hc, hop, hlibs, hcond, hrt]⟩
    · exact ⟨rt, by simp [captureCheck, hc, hop, hrt]⟩

theorem captureCheck_true_of {b : Board} {st : Stone} {x y : Nat}
    (hWF : b.WF) (hst : st ≠ Stone.Empty) :
    ∀ {l : List Pos}, (∀ q ∈ l, q ∈ b.univPos) →
    (∃ n ∈ l, b.get? n.1 n.2 = some st.not ∧
      b.liberties n.1 n.2 = some {(x, y)}) →
    b.captureCheck st x y l = some true := by
  intro l
  induction l with
  | nil => simp
  | cons hd tl ih =>
    intro hl hw
    have hhd : hd ∈ b.univPos := hl hd (by simp)
    obtain ⟨c, hc⟩ := get?_eq_some hWF hhd
    obtain ⟨a, e⟩ := hd
    obtain ⟨n, hn, hcoln, hlibn⟩ := hw
    rcases List.mem_cons.1 hn with rfl | hn
    · have hcop : c = st.not := by
        rw [hc] at hcoln
        exact Option.some_inj.1 hcoln
      have hcond : (({(x, y)} : Finset Pos).card = 1 ∧ ((x, y) : Pos) ∈
          ({(x, y)} : Finset Pos)) := by simp
      simp [captureCheck, hc, hcop, hlibn, hcond]
    · by_cases hop : c = st.not
      · have hmem := mem_univPos.1 hhd
        obtain ⟨libs, hlibs, _⟩ := liberties_spec hWF hmem.1 hmem.2
          (hop ▸ hc) (Stone.not_ne_empty hst)
        by_cases hcond : libs.card = 1 ∧ (x, y) ∈ libs
        · simp [captureCheck, hc, hop, hlibs, hcond]
        · have := ih (fun q hq => hl q (by simp [hq])) ⟨n, hn, hcoln, hlibn⟩
          simp [captureCheck, hc, hop, hlibs, hcond, this]
      · have := ih (fun q hq => hl q (by simp [hq])) ⟨n, hn, hcoln, hlibn⟩
        simp [captureCheck, hc, hop, this]

theorem captureCheck_false_of {b : Board} {st : Stone} {x y : Nat}
    (hWF : b.WF) (hst : st ≠ Stone.Empty) :
    ∀ {l : List Pos}, (∀ q ∈ l, q ∈ b.univPos) →
    (∀ n ∈ l, b.get? n.1 n.2 = some st.not →
      b.liberties n.1 n.2 ≠ some {(x, y)}) →
    b.captureCheck st x y l = some false := by
  intro l
  induction l with
  | nil => simp [captureCheck]
  | cons hd tl ih =>
    intro hl hno
    have hhd : hd ∈ b.univPos := hl hd (by simp)
    obtain ⟨c, hc⟩ := get?_eq_some hWF hhd
    obtain ⟨a, e⟩ := hd
    have hrec := ih (fun q hq => hl q (by simp [hq]))
      (fun n hn => hno n (by simp [hn]))
    by_cases hop : c = st.not
    · have hmem := mem_univPos.1 hhd
      obtain ⟨libs, hlibs, _⟩ := liberties_spec hWF hmem.1 hmem.2
        (hop ▸ hc) (Stone.not_ne_empty hst)
      have hcond : ¬ (libs.card = 1 ∧ (x, y) ∈ libs) := by
        intro hcond
        exact hno (a, e) (by simp) (hop ▸ hc) (by rw [hlibs,
          card_one_mem_iff.1 hcond])
      simp [captureCheck, hc, hop, hlibs, hcond, hrec]
    · simp [captureCheck, hc, hop, hrec]

/-- Rust `Board::legal_move` never changes the board it is given: the simulated
placement during the self-capture check is written and reverted. -/
theorem legal_move_board_eq {b b' : Board} {st : Stone} {x y : Nat} {r : Bool}
    (h : b.legal_move st x y = some (r, b')) : b' = b := by
  unfold legal_move at h
  by_cases hst : st = Stone.Empty
  · rw [if_pos hst] at h
    exact (Prod.mk.injEq _ _ _ _ ▸ Option.some_inj.1 h).2.symm
  · rw [if_neg hst] at h
    cases hc : b.get? x y with
    | none => rw [hc] at h; exact absurd h (by simp)
    | some c =>
      rw [hc] at h
      simp only at h
      by_cases hce : c = Stone.Empty
      · rw [if_neg (by simp [hce])] at h
        by_cases hb : x ≥ b.size ∨ y ≥ b.size
        · rw [if_pos hb] at h
          exact (Prod.mk.injEq _ _ _ _ ▸ Option.some_inj.1 h).2.symm
        · rw [if_neg hb] at h
          cases hcap : b.captureCheck st x y (b.neighbours x y) with
          | none => rw [hcap] at h; exact absurd h (by simp)
          | some cap =>
            rw [hcap] at h
            simp only at h
            by_cases hcapb : cap = true
            · rw [if_pos hcapb] at h
              exact (Prod.mk.injEq _ _ _ _ ▸ Option.some_inj.1 h).2.symm
            · rw [if_neg hcapb] at h
              cases hb1 : b.set? x y st with
              | none => rw [hb1] at h; exact absurd h (by simp)
              | some b1 =>
                rw [hb1] at h
                simp only at h
                cases hlibs : b1.liberties x y with
                | none => rw [hlibs] at h; exact absurd h (by simp)
                | some libs =>
                  rw [hlibs] at h
                  simp only at h
                  cases hb2 : b1.set? x y Stone.Empty with
                  | none => rw [hb2] at h; exact absurd h (by simp)
                  | some b2 =>
                    rw [hb2] at h
                    simp only at h
                    obtain ⟨hidx1, hb1e⟩ := set?_inv hb1
                    have hb2e : b2 = b := by
                      obtain ⟨hidx2, hb2e⟩ := set?_inv hb2
                      rw [hb2e, hb1e]
                      simp only [List.set_set]
                      have hss : b.state.set (y * b.size + x) Stone.Empty
                          = b.state :=
                        list_set_self (by simpa [get?, hce] using hc)
                      simp [hss]
                    split at h <;>
                      exact hb2e ▸ (Prod.mk.injEq _ _ _ _ ▸ Option.some_inj.1 h).2.symm
      · rw [if_pos (by simp [hce])] at h
        exact (Prod.mk.injEq _ _ _ _ ▸ Option.some_inj.1 h).2.symm

/-- On a well-formed board with an in-bounds target, `Board::legal_move`
returns normally (no panic) and leaves the board unchanged. -/
theorem legal_move_total {b : Board} {st : Stone} {x y : Nat}
    (hWF : b.WF) (hx : x < b.size) (hy : y < b.size) :
    ∃ r, b.legal_move st x y = some (r, b) := by
  by_cases hst : st = Stone.Empty
  · exact ⟨false, by simp [legal_move, hst]⟩
  · have hroot : ((x, y) : Pos) ∈ b.univPos := mem_univPos.2 ⟨hx, hy⟩
    obtain ⟨c, hc0⟩ := get?_eq_some hWF hroot
    have hc : b.get? x y = some c := hc0
    by_cases hce : c = Stone.Empty
    · subst hce
      have hbnd : ¬ (x ≥ b.size ∨ y ≥ b.size) := by omega
      obtain ⟨cap, hcap0⟩ := captureCheck_total (x := x) (y := y) hWF hst
        (fun q hq => neighbours_mem_univPos hroot hq)
      have hcap : b.captureCheck st x y (b.neighbours x y) = some cap := hcap0
      by_cases hcapb : cap = true
      · subst hcapb
        refine ⟨true, ?_⟩
        rw [legal_move, if_neg hst, hc]
        simp only [ne_eq, not_true_eq_false, reduceIte, hbnd, hcap]
      · rw [Bool.not_eq_true] at hcapb
        subst hcapb
        have hb1 := set?_eq_some hWF hroot st
        set b1 : Board := { b with state := b.state.set (y * b.size + x) st }
          with hb1def
        have hb1WF : b1.WF := by
          unfold WF
          simp only [hb1def, List.length_set]
          exact hWF
        have hb1get : b1.get? x y = some st :=
          get?_set?_self hroot hb1
        obtain ⟨libs, hlibs, _⟩ := liberties_spec (b := b1) hb1WF
          (by simpa [hb1def] using hx) (by simpa [hb1def] using hy) hb1get hst
        have hb2 : b1.set? x y Stone.Empty = some b := by
          have hidx : y * b1.size + x < b1.state.length := by
            simp only [hb1def, List.length_set]
            exact lt_of_lt_of_le (idx_lt hroot) hWF
          unfold set?
          rw [if_pos hidx]
          congr 1
          rw [hb1def]
          simp only [List.set_set]
          congr 1
          exact list_set_self (by simpa [get?] using hc)
        refine ⟨if libs.card = 0 then false else true, ?_⟩
        rw [legal_move, if_neg hst, hc]
        simp only [ne_eq, not_true_eq_false, reduceIte, hbnd, hcap,
          Bool.false_eq_true, hb1, hlibs, hb2]
        split <;> rfl
    · refine ⟨false, ?_⟩
      rw [legal_move, if_neg hst, hc]
      simp only [ne_eq, hce, not_false_eq_true, reduceIte]

/-! ## Capture execution -/

theorem cellList_mem {s : Finset Pos} {p : Pos} : p ∈ cellList s ↔ p ∈ s := by
  unfold cellList
  simp only [List.mem_map, Finset.mem_sort, Finset.mem_image]
  constructor
  · rintro ⟨n, ⟨q, hq, rfl⟩, rfl⟩
    simpa [Nat.unpair_pair] using hq
  · intro hp
    exact ⟨Nat.pair p.1 p.2, ⟨p, hp, rfl⟩, by simp [Nat.unpair_pair]⟩

theorem clearChain_spec {b : Board} :
    ∀ {l : List Pos} {bc : Board}, bc.size = b.size → bc.WF →
    (∀ p ∈ l, p ∈ b.univPos) →
    ∃ bc₂, clearChain l bc = some bc₂ ∧ bc₂.size = bc.size ∧
      bc₂.state.length = bc.state.length ∧
      ∀ p : Pos, p ∈ b.univPos →
        bc₂.get? p.1 p.2 =
          if p ∈ l then some Stone.Empty else bc.get? p.1 p.2 := by
  intro l
  induction l with
  | nil =>
    intro bc _ _ _
    exact ⟨bc, rfl, rfl, rfl, fun p _ => by simp⟩
  | cons hd tl ih =>
    intro bc hsz hWF hl
    have hhd : hd ∈ bc.univPos := by
      rw [univPos_congr hsz]
      exact hl hd (by simp)
    have hb' := set?_eq_some hWF hhd Stone.Empty
    set b' : Board :=
      { bc with state := bc.state.set (hd.2 * bc.size + hd.1) Stone.Empty }
      with hbpdef
    have hbpsz : b'.size = bc.size := rfl
    have hbplen : b'.state.length = bc.state.length := by simp [hbpdef]
    have hbpWF : b'.WF := by
      unfold WF
      rw [hbplen, hbpsz]
      exact hWF
    obtain ⟨bc₂, hrun, h1, h2, h3⟩ := ih
      (show b'.size = b.size by rw [hbpsz, hsz])
      hbpWF (fun p hp => hl p (by simp [hp]))
    refine ⟨bc₂, ?_, by rw [h1, hbpsz], by rw [h2, hbplen], ?_⟩
    · obtain ⟨cx, cy⟩ := hd
      simp only [clearChain, hb']
      exact hrun
    · intro p hp
      have hpbc : p ∈ bc.univPos := by
        rw [univPos_congr hsz]
        exact hp
      rw [h3 p hp]
      by_cases hptl : p ∈ tl
      · simp [hptl]
      · by_cases hphd : p = hd
        · subst hphd
          simp only [hptl, if_false, List.mem_cons, true_or, if_true]
          exact get?_set?_self hhd hb'
        · simp only [hptl, if_false, List.mem_cons, hphd, false_or]
          exact get?_set?_other hhd hpbc hphd hb'

theorem cleared_WF {b bc : Board} {D : Set Pos} (hWF : b.WF)
    (hC : Cleared b D bc) : bc.WF := by
  unfold WF
  rw [hC.2.1, hC.1]
  exact hWF

/-- Clearing a union of opposing chains does not change the connectivity
of the remaining opposing stones. -/
theorem reach_clear_iff {b bc : Board} {st : Stone} {D : Set Pos} {n : Pos}
    (hWF : b.WF) (hst : st ≠ Stone.Empty)
    (hD : DGood b st D) (hC : Cleared b D bc)
    (hn : n ∈ b.univPos) (hnc : b.get? n.1 n.2 = some st) (hnD : n ∉ D) :
    ∀ q, Reach bc st n q ↔ Reach b st n q := by
  have huniv : bc.univPos = b.univPos := univPos_congr hC.1
  intro q
  constructor
  · intro h
    induction h with
    | refl => exact Reach.refl'
    | tail hr hstep ih =>
      rename_i m q
      have hm : m ∈ b.univPos := by
        rw [← huniv]
        exact Reach_mem_univPos (by rw [huniv]; exact hn) hr
      have hq : q ∈ b.univPos := by
        rw [← huniv]
        exact neighbours_mem_univPos (huniv.symm ▸ hm) hstep.1
      have hqD : q ∉ D := by
        intro hqD
        have := (hC.2.2 q hq).1 hqD
        rw [hstep.2] at this
        exact hst (Option.some_inj.1 this)
      have hqcol : b.get? q.1 q.2 = some st := by
        rw [← (hC.2.2 q hq).2 hqD]
        exact hstep.2
      exact Relation.ReflTransGen.tail ih
        ⟨neighbours_size_congr hC.1 m.1 m.2 ▸ hstep.1, hqcol⟩
  · intro h
    induction h with
    | refl => exact Reach.refl'
    | tail hr hstep ih =>
      rename_i m q
      have hm : m ∈ b.univPos := Reach_mem_univPos hn hr
      have hq : q ∈ b.univPos := neighbours_mem_univPos hm hstep.1
      have hqD : q ∉ D := by
        intro hqD
        have hreach : Reach b st n q := Relation.ReflTransGen.tail hr hstep
        have := hD.2 q hqD n (Reach_symmetric hn hnc hreach)
        exact hnD this
      have hqcol : bc.get? q.1 q.2 = some st := by
        rw [(hC.2.2 q hq).2 hqD]
        exact hstep.2
      exact Relation.ReflTransGen.tail ih
        ⟨(neighbours_size_congr hC.1 m.1 m.2).symm ▸ hstep.1, hqcol⟩

/-- Clearing a union of opposing chains changes neither the liberties of a
surviving opposing stone's chain. -/
theorem liberties_clear_eq {b bc : Board} {st : Stone} {D : Set Pos} {n : Pos}
    (hWF : b.WF) (hst : st ≠ Stone.Empty)
    (hD : DGood b st D) (hC : Cleared b D bc)
    (hn : n ∈ b.univPos) (hnc : b.get? n.1 n.2 = some st) (hnD : n ∉ D) :
    bc.liberties n.1 n.2 = b.liberties n.1 n.2 := by
  have huniv : bc.univPos = b.univPos := univPos_congr hC.1
  have hbcWF : bc.WF := cleared_WF hWF hC
  have hbcn : bc.get? n.1 n.2 = some st := ((hC.2.2 n hn).2 hnD).trans hnc
  have hmem := mem_univPos.1 hn
  obtain ⟨Lb, hLb, hLbmem⟩ := liberties_spec hWF hmem.1 hmem.2 hnc hst
  obtain ⟨Lc, hLc, hLcmem⟩ := liberties_spec hbcWF
    (by rw [hC.1]; exact hmem.1) (by rw [hC.1]; exact hmem.2) hbcn hst
  have hreach := reach_clear_iff hWF hst hD hC hn hnc hnD
  have hnb : n = (n.1, n.2) := rfl
  rw [hLb, hLc]
  congr 1
  ext d
  rw [hLcmem d, hLbmem d]
  constructor
  · rintro ⟨hde, c, hrc, hnbc⟩
    have hrcb : Reach b st (n.1, n.2) c := (hreach c).1 hrc
    have hc : c ∈ b.univPos := Reach_mem_univPos (hnb ▸ hn) hrcb
    have hd : d ∈ b.univPos := neighbours_mem_univPos hc
      (neighbours_size_congr hC.1 c.1 c.2 ▸ hnbc)
    have hdD : d ∉ D := by
      intro hdD
      have hccol : b.get? c.1 c.2 = some st := Reach_colored hrcb hnc
      have hdcol : b.get? d.1 d.2 = some st := (hD.1 d hdD).1
      have hstep : Step b st c d :=
        ⟨neighbours_size_congr hC.1 c.1 c.2 ▸ hnbc, hdcol⟩
      have : Reach b st (n.1, n.2) d := Relation.ReflTransGen.tail hrcb hstep
      exact hnD (hD.2 d hdD n (hnb ▸ Reach_symmetric (hnb ▸ hn) hnc this))
    refine ⟨?_, c, hrcb, neighbours_size_congr hC.1 c.1 c.2 ▸ hnbc⟩
    rw [← (hC.2.2 d hd).2 hdD]
    exact hde
  · rintro ⟨hde, c, hrc, hnbc⟩
    have hc : c ∈ b.univPos := Reach_mem_univPos (hnb ▸ hn) hrc
    have hd : d ∈ b.univPos := neighbours_mem_univPos hc hnbc
    have hdD : d ∉ D := by
      intro hdD
      have := (hD.1 d hdD).1
      rw [hde] at this
      exact hst (Option.some_inj.1 this).symm
    refine ⟨?_, c, (hreach c).2 hrc,
      (neighbours_size_congr hC.1 c.1 c.2).symm ▸ hnbc⟩
    rw [(hC.2.2 d hd).2 hdD]
    exact hde

/-- Clearing a union of opposing chains does not change the chain of a
surviving opposing stone. -/
theorem chain_at_clear_eq {b bc : Board} {st : Stone} {D : Set Pos} {n : Pos}
    (hWF : b.WF) (hst : st ≠ Stone.Empty)
    (hD : DGood b st D) (hC : Cleared b D bc)
    (hn : n ∈ b.univPos) (hnc : b.get? n.1 n.2 = some st) (hnD : n ∉ D) :
    bc.chain_at n.1 n.2 = b.chain_at n.1 n.2 := by
  have hbcWF : bc.WF := cleared_WF hWF hC
  have hbcn : bc.get? n.1 n.2 = some st := ((hC.2.2 n hn).2 hnD).trans hnc
  have hmem := mem_univPos.1 hn
  obtain ⟨Sb, hSb, hSbmem⟩ := chain_at_spec hWF hmem.1 hmem.2 hnc hst
  obtain ⟨Sc, hSc, hScmem⟩ := chain_at_spec hbcWF
    (by rw [hC.1]; exact hmem.1) (by rw [hC.1]; exact hmem.2) hbcn hst
  have hreach := reach_clear_iff hWF hst hD hC hn hnc hnD
  rw [hSb, hSc]
  congr 1
  ext q
  rw [hScmem q, hSbmem q]
  exact hreach q

theorem capSet_nil {b : Board} {s : Stone} {x y : Nat} :
    CapSet b s x y [] = (∅ : Set Pos) := by
  ext p
  constructor
  · rintro ⟨n, hn, _⟩
    simp at hn
  · intro h
    exact absurd h (Set.not_mem_empty p)

theorem capSet_cons {b : Board} {s : Stone} {x y : Nat} {n : Pos}
    {l : List Pos} {p : Pos} :
    p ∈ CapSet b s x y (n :: l) ↔
      (TrigN b s x y n ∧ Reach b s.not n p) ∨ p ∈ CapSet b s x y l := by
  constructor
  · rintro ⟨m, hm, htr, hre⟩
    rcases List.mem_cons.1 hm with rfl | hm
    · exact Or.inl ⟨htr, hre⟩
    · exact Or.inr ⟨m, hm, htr, hre⟩
  · rintro (⟨htr, hre⟩ | ⟨m, hm, htr, hre⟩)
    · exact ⟨n, by simp, htr, hre⟩
    · exact ⟨m, by simp [hm], htr, hre⟩

/-- The invariant step of `Board::make_move`'s capture loop: processing the
neighbour list clears exactly the union of the triggered chains, with
liberty counts effectively evaluated against the pre-placement board. -/
theorem captureLoop_spec {b : Board} {s : Stone} {x y : Nat}
    (hWF : b.WF) (hs : s ≠ Stone.Empty) :
    ∀ (ns : List Pos) (D : Set Pos) (bc : Board),
    (∀ q ∈ ns, q ∈ b.univPos) → DGood b s.not D → Cleared b D bc →
    ∃ bc', captureLoop s x y ns bc = some bc' ∧
      DGood b s.not (D ∪ CapSet b s x y ns) ∧
      Cleared b (D ∪ CapSet b s x y ns) bc' := by
  have hsne : s.not ≠ Stone.Empty := Stone.not_ne_empty hs
  intro ns
  induction ns with
  | nil =>
    intro D bc _ hD hC
    refine ⟨bc, rfl, ?_, ?_⟩ <;> rw [capSet_nil, Set.union_empty]
    · exact hD
    · exact hC
  | cons n ns' ih =>
    intro D bc hns hD hC
    have hn : n ∈ b.univPos := hns n (by simp)
    have hbcWF : bc.WF := cleared_WF hWF hC
    have hnbc : n ∈ bc.univPos := by
      rw [univPos_congr hC.1]
      exact hn
    obtain ⟨cn, hcn⟩ := get?_eq_some hbcWF hnbc
    obtain ⟨nx, ny⟩ := n
    by_cases hnD : (nx, ny) ∈ D
    · -- already captured: the cell now reads Empty, not the opposing color
      have hcne : cn = Stone.Empty := by
        have := (hC.2.2 (nx, ny) hn).1 hnD
        rw [hcn] at this
        exact Option.some_inj.1 this
      have hskip : ¬ (cn = s.not) := by
        rw [hcne]
        exact fun h => hsne h.symm
      obtain ⟨bc', hrun, hD', hC'⟩ := ih D bc (fun q hq => hns q (by simp [hq]))
        hD hC
      have hset : D ∪ CapSet b s x y ((nx, ny) :: ns')
          = D ∪ CapSet b s x y ns' := by
        ext p
        simp only [Set.mem_union, capSet_cons]
        constructor
        · rintro (hp | (⟨htrig, hreach⟩ | hcs))
          · exact Or.inl hp
          · exact Or.inl (hD.2 _ hnD _ hreach)
          · exact Or.inr hcs
        · rintro (hp | hcs)
          · exact Or.inl hp
          · exact Or.inr (Or.inr hcs)
      refine ⟨bc', ?_, hset ▸ hD', hset ▸ hC'⟩
      simp only [captureLoop, hcn, hskip, if_false, reduceIte]
      exact hrun
    · have hcnb : b.get? (nx, ny).1 (nx, ny).2 = some cn := by
        rw [← (hC.2.2 (nx, ny) hn).2 hnD]
        exact hcn
      by_cases hop : cn = s.not
      · subst hop
        have hmemn := mem_univPos.1 hn
        obtain ⟨Lb, hLb, hLbmem⟩ := liberties_spec hWF hmemn.1 hmemn.2
          hcnb hsne
        have hlibeq : bc.liberties nx ny = b.liberties nx ny :=
          liberties_clear_eq hWF hsne hD hC hn hcnb hnD
        by_cases hcond : Lb.card = 1 ∧ ((x, y) : Pos) ∈ Lb
        · -- the chain is captured here
          have htrig : TrigN b s x y (nx, ny) :=
            ⟨hcnb, by rw [hLb, card_one_mem_iff.1 hcond]⟩
          obtain ⟨C, hCb, hCmem⟩ := chain_at_spec hWF hmemn.1 hmemn.2
            hcnb hsne
          have hchaineq : bc.chain_at nx ny = b.chain_at nx ny :=
            chain_at_clear_eq hWF hsne hD hC hn hcnb hnD
          have hcells : ∀ p ∈ cellList C, p ∈ b.univPos := by
            intro p hp
            exact Reach_mem_univPos hn ((hCmem p).1 (cellList_mem.1 hp))
          obtain ⟨bc₂, hclear, hsz2, hlen2, hget2⟩ :=
            clearChain_spec hC.1 hbcWF hcells
          set D₂ : Set Pos := D ∪ (fun p => Reach b s.not (nx, ny) p)
            with hD₂def
          have hD₂ : DGood b s.not D₂ := by
            constructor
            · intro p hp
              rcases hp with hp | hp
              · exact hD.1 p hp
              · exact ⟨Reach_colored hp hcnb, Reach_mem_univPos hn hp⟩
            · intro p hp q hq
              rcases hp with hp | hp
              · exact Or.inl (hD.2 p hp q hq)
              · exact Or.inr (Relation.ReflTransGen.trans hp hq)
          have hC₂ : Cleared b D₂ bc₂ := by
            refine ⟨by rw [hsz2, hC.1], by rw [hlen2, hC.2.1], ?_⟩
            intro p hp
            constructor
            · intro hpD₂
              rw [hget2 p hp]
              by_cases hpc : p ∈ cellList C
              · simp [hpc]
              · have hpD : p ∈ D := by
                  rcases hpD₂ with hpD | hpr
                  · exact hpD
                  · exact absurd (cellList_mem.2 ((hCmem p).2 hpr)) hpc
                simp only [hpc, if_false]
                exact (hC.2.2 p hp).1 hpD
            · intro hpD₂
              have hpD : p ∉ D := fun hc => hpD₂ (Or.inl hc)
              have hpr : ¬ Reach b s.not (nx, ny) p :=
                fun hc => hpD₂ (Or.inr hc)
              have hpc : p ∉ cellList C := by
                intro hc
                exact hpr ((hCmem p).1 (cellList_mem.1 hc))
              rw [hget2 p hp]
              simp only [hpc, if_false]
              exact (hC.2.2 p hp).2 hpD
          obtain ⟨bc', hrun, hD', hC'⟩ := ih D₂ bc₂
            (fun q hq => hns q (by simp [hq])) hD₂ hC₂
          have hset : D₂ ∪ CapSet b s x y ns'
              = D ∪ CapSet b s x y ((nx, ny) :: ns') := by
            ext p
            simp only [hD₂def, Set.mem_union, capSet_cons]
            constructor
            · rintro ((hp | hp) | hcs)
              · exact Or.inl hp
              · exact Or.inr (Or.inl ⟨htrig, hp⟩)
              · exact Or.inr (Or.inr hcs)
            · rintro (hp | (⟨htr, hre⟩ | hcs))
              · exact Or.inl (Or.inl hp)
              · exact Or.inl (Or.inr hre)
              · exact Or.inr hcs
          refine ⟨bc', ?_, hset ▸ hD', hset ▸ hC'⟩
          simp only [captureLoop, hcn, reduceIte]
          rw [hlibeq, hLb]
          simp only [hcond, and_self, reduceIte]
          rw [hchaineq, hCb]
          simp only [hclear]
          exact hrun
        · -- opposing chain with other liberties: not captured
          have hnotrig : ¬ TrigN b s x y (nx, ny) := by
            rintro ⟨_, htr⟩
            rw [hLb] at htr
            rw [Option.some_inj.1 htr] at hcond
            simp at hcond
          obtain ⟨bc', hrun, hD', hC'⟩ := ih D bc
            (fun q hq => hns q (by simp [hq])) hD hC
          have hset : D ∪ CapSet b s x y ((nx, ny) :: ns')
              = D ∪ CapSet b s x y ns' := by
            ext p
            simp only [Set.mem_union, capSet_cons]
            constructor
            · rintro (hp | (⟨htr, hre⟩ | hcs))
              · exact Or.inl hp
              · exact absurd htr hnotrig
              · exact Or.inr hcs
            · rintro (hp | hcs)
              · exact Or.inl hp
              · exact Or.inr (Or.inr hcs)
          refine ⟨bc', ?_, hset ▸ hD', hset ▸ hC'⟩
          simp only [captureLoop, hcn, reduceIte]
          rw [hlibeq, hLb]
          simp only [hcond, reduceIte]
          exact hrun
      · -- not an opposing stone: nothing happens
        have hnotrig : ¬ TrigN b s x y (nx, ny) := by
          rintro ⟨htr, _⟩
          rw [hcnb] at htr
          exact hop (Option.some_inj.1 htr)
        obtain ⟨bc', hrun, hD', hC'⟩ := ih D bc
          (fun q hq => hns q (by simp [hq])) hD hC
        have hset : D ∪ CapSet b s x y ((nx, ny) :: ns')
            = D ∪ CapSet b s x y ns' := by
          ext p
          simp only [Set.mem_union, capSet_cons]
          constructor
          · rintro (hp | (⟨htr, hre⟩ | hcs))
            · exact Or.inl hp
            · exact absurd htr hnotrig
            · exact Or.inr hcs
          · rintro (hp | hcs)
            · exact Or.inl hp
            · exact Or.inr (Or.inr hcs)
        refine ⟨bc', ?_, hset ▸ hD', hset ▸ hC'⟩
        simp only [captureLoop, hcn, hop, reduceIte]
        exact hrun

end Board

/-! ## Claim theorems -/

/-- C10: observational purity of `legal_move`.  Although `Board::legal_move`
takes the board mutably and simulates placing the stone during the
self-capture check, for every (well-formed) board, stone and in-bounds
coordinate the call returns normally and the board it leaves behind is
structurally equal to the board before the call, for both verdicts. -/
theorem c10_legal_move_purity (b : Board) (s : Stone) (x y : Nat)
    (hWF : b.WF) (hx : x < b.size) (hy : y < b.size) :
    (∃ r : Bool, b.legal_move s x y = some (r, b)) ∧
    ∀ (r : Bool) (b' : Board), b.legal_move s x y = some (r, b') → b' = b := by
  refine ⟨Board.legal_move_total hWF hx hy, ?_⟩
  intro r b' h
  exact Board.legal_move_board_eq h

theorem c10_legal_move_purity_witness :
    (Board.with_size 2).WF ∧
    ((∃ r : Bool, (Board.with_size 2).legal_move Stone.Black 0 0
        = some (r, Board.with_size 2)) ∧
      ∀ (r : Bool) (b' : Board),
        (Board.with_size 2).legal_move Stone.Black 0 0 = some (r, b') →
          b' = Board.with_size 2) :=
  ⟨by unfold Board.WF; decide,
    c10_legal_move_purity (Board.with_size 2) Stone.Black 0 0
      (by unfold Board.WF; decide) (by decide) (by decide)⟩

/-- C5 counterexample: with the `Empty` stone and a coordinate whose flat
index overruns the grid, `legal_move` returns `false` (it rejects the
`Empty` color before reading the board) but `make_move` reads the cell
first and panics (`none`), so it does not return `false` and the claim
fails as stated. -/
theorem c5_counterexample :
    (Board.with_size 1).legal_move Stone.Empty 0 1
        = some (false, Board.with_size 1) ∧
    (Board.with_size 1).make_move Stone.Empty 0 1 = none := by decide

/-- C5 (amended): failed-move atomicity holds whenever `make_move`'s
initial read of `(x, y)` does not panic (flat index in range): if
`legal_move` is false then `make_move` returns false and leaves the board
byte-for-byte unchanged, so a second identical call fails identically. -/
theorem c5_failed_move_atomicity (b : Board) (s : Stone) (x y : Nat)
    (b₁ : Board) (hidx : y * b.size + x < b.state.length)
    (h : b.legal_move s x y = some (false, b₁)) :
    b.make_move s x y = some (false, b) ∧
    (b.make_move s x y).bind (fun r => r.2.make_move s x y)
      = some (false, b) := by
  obtain ⟨c, hc⟩ : ∃ c, b.get? x y = some c :=
    ⟨_, List.get?_eq_get hidx⟩
  have hmain : b.make_move s x y = some (false, b) := by
    rw [Board.make_move, hc]
    simp only
    by_cases hce : c = Stone.Empty
    · rw [if_neg (by simp [hce])]
      by_cases hse : s = Stone.Empty
      · rw [if_pos hse]
      · rw [if_neg hse, h]
        have hb₁ : b₁ = b := Board.legal_move_board_eq h
        simp [hb₁]
    · rw [if_pos (by simp [hce])]
  exact ⟨hmain, by simp [hmain]⟩

theorem c5_failed_move_atomicity_witness :
    (0 * (Board.mk [Stone.Black] 1).size + 0
        < (Board.mk [Stone.Black] 1).state.length) ∧
    (Board.mk [Stone.Black] 1).make_move Stone.Black 0 0
      = some (false, Board.mk [Stone.Black] 1) :=
  ⟨by decide,
    (c5_failed_move_atomicity (Board.mk [Stone.Black] 1) Stone.Black 0 0
      (Board.mk [Stone.Black] 1) (by decide) (by decide)).1⟩

/-- C6 counterexample: an out-of-bounds placement is not always a boolean
failure.  On a 1×1 board the coordinate `(0, 1)` has `y ≥ size`, and both
`legal_move` and `make_move` fault (panic on the out-of-range vector
index, modelled `none`) instead of returning `false`. -/
theorem c6_counterexample :
    1 ≥ (Board.with_size 1).size ∧
    (Board.with_size 1).make_move Stone.Black 0 1 = none ∧
    (Board.with_size 1).legal_move Stone.Black 0 1 = none := by decide

/-- C6 (amended): for an out-of-bounds coordinate (`x ≥ size` or
`y ≥ size`), `legal_move` and `make_move` return `false` and leave the
board unchanged when the flat index `y * size + x` still lands inside the
backing vector; when it does not, the initial cell read faults (panics)
instead — `make_move` always, `legal_move` for every non-`Empty` stone. -/
theorem c6_out_of_bounds (b : Board) (s : Stone) (x y : Nat)
    (hoob : x ≥ b.size ∨ y ≥ b.size) :
    (y * b.size + x < b.state.length →
      b.legal_move s x y = some (false, b) ∧
      b.make_move s x y = some (false, b)) ∧
    (b.state.length ≤ y * b.size + x →
      b.make_move s x y = none ∧
      (s ≠ Stone.Empty → b.legal_move s x y = none)) := by
  constructor
  · intro hidx
    obtain ⟨c, hc⟩ : ∃ c, b.get? x y = some c := ⟨_, List.get?_eq_get hidx⟩
    have hlegal : b.legal_move s x y = some (false, b) := by
      by_cases hse : s = Stone.Empty
      · rw [Board.legal_move, if_pos hse]
      · rw [Board.legal_move, if_neg hse, hc]
        simp only
        by_cases hce : c = Stone.Empty
        · rw [if_neg (by simp [hce]), if_pos hoob]
        · rw [if_pos (by simp [hce])]
    refine ⟨hlegal, ?_⟩
    rw [Board.make_move, hc]
    simp only
    by_cases hce : c = Stone.Empty
    · rw [if_neg (by simp [hce])]
      by_cases hse : s = Stone.Empty
      · rw [if_pos hse]
      · rw [if_neg hse, hlegal]
        simp
    · rw [if_pos (by simp [hce])]
  · intro hidx
    have hc : b.get? x y = none := by
      unfold Board.get?
      exact List.get?_eq_none.2 hidx
    constructor
    · rw [Board.make_move, hc]
    · intro hse
      rw [Board.legal_move, if_neg hse, hc]

theorem c6_out_of_bounds_witness :
    (0 ≥ (Board.mk [Stone.Black, Stone.Black] 1).size ∨
      1 ≥ (Board.mk [Stone.Black, Stone.Black] 1).size) ∧
    (Board.mk [Stone.Black, Stone.Black] 1).make_move Stone.Black 0 1
      = some (false, Board.mk [Stone.Black, Stone.Black] 1) :=
  ⟨by decide,
    ((c6_out_of_bounds (Board.mk [Stone.Black, Stone.Black] 1)
      Stone.Black 0 1 (by decide)).1 (by decide)).2⟩

/-- C1: ko enforcement and commit semantics of `Game::make_move`.  When the
board-level move on the cloned candidate succeeds: if the previous board
exists and equals the candidate, the call fails and the game (current
board, previous-board slot and player metadata) is unchanged; otherwise
the previous-board slot becomes the pre-move current board, the current
board becomes the candidate and the call succeeds. -/
theorem c1_ko_rule_commit (g : Game) (s : Stone) (x y : Nat) (cand : Board)
    (h : g.board.make_move s x y = some (true, cand)) :
    (g.last_board = some cand → g.make_move s x y = some (false, g)) ∧
    (g.last_board ≠ some cand →
      g.make_move s x y =
        some (true, { g with last_board := some g.board, board := cand })) := by
  unfold Game.make_move
  rw [h]
  constructor
  · intro hko
    simp [hko]
  · intro hko
    simp [hko]

/-- C3: the capture-enabling exception precedes the self-capture check.
For every well-formed board, non-empty stone and in-bounds empty target,
if some orthogonally adjacent opposing chain has exactly one liberty and
that liberty is the target, `legal_move` returns true — regardless of the
liberties the placing stone's own chain would have after placement. -/
theorem c3_capture_exception_first (b : Board) (s : Stone) (x y : Nat)
    (hWF : b.WF) (hx : x < b.size) (hy : y < b.size)
    (hempty : b.get? x y = some Stone.Empty) (hs : s ≠ Stone.Empty)
    (hcap : ∃ n ∈ b.neighbours x y, b.get? n.1 n.2 = some s.not ∧
      b.liberties n.1 n.2 = some {(x, y)}) :
    b.legal_move s x y = some (true, b) := by
  have hroot : ((x, y) : Pos) ∈ b.univPos := Board.mem_univPos.2 ⟨hx, hy⟩
  have hcheck : b.captureCheck s x y (b.neighbours x y) = some true :=
    Board.captureCheck_true_of hWF hs
      (fun q hq => Board.neighbours_mem_univPos hroot hq) hcap
  rw [Board.legal_move, if_neg hs, hempty]
  simp only
  rw [if_neg (by simp), if_neg (by omega), hcheck]
  simp

theorem c3_capture_exception_first_witness :
    (Board.mk [Stone.White, Stone.Empty, Stone.Black, Stone.Empty] 2).legal_move
      Stone.Black 1 0
    = some (true, Board.mk [Stone.White, Stone.Empty, Stone.Black, Stone.Empty] 2) :=
  c3_capture_exception_first _ Stone.Black 1 0 (by unfold Board.WF; decide)
    (by decide) (by decide) (by decide) (by decide)
    ⟨(0, 0), by decide, by decide, rfl⟩

/-- C4: suicide prevention.  For every well-formed board, non-empty stone
and in-bounds empty target, if no adjacent opposing chain has the target
as its sole liberty and the chain containing the target after a simulated
placement has zero liberties, then `legal_move` and `make_move` both
return false and the board is unchanged. -/
theorem c4_suicide_prevention (b : Board) (s : Stone) (x y : Nat)
    (b' : Board) (hWF : b.WF) (hx : x < b.size) (hy : y < b.size)
    (hempty : b.get? x y = some Stone.Empty) (hs : s ≠ Stone.Empty)
    (hnocap : ∀ n ∈ b.neighbours x y, b.get? n.1 n.2 = some s.not →
      b.liberties n.1 n.2 ≠ some {(x, y)})
    (hsim : b.set? x y s = some b') (hzero : b'.liberties x y = some ∅) :
    b.legal_move s x y = some (false, b) ∧
    b.make_move s x y = some (false, b) := by
  have hroot : ((x, y) : Pos) ∈ b.univPos := Board.mem_univPos.2 ⟨hx, hy⟩
  have hcheck : b.captureCheck s x y (b.neighbours x y) = some false :=
    Board.captureCheck_false_of hWF hs
      (fun q hq => Board.neighbours_mem_univPos hroot hq) hnocap
  have hback : b'.set? x y Stone.Empty = some b := by
    obtain ⟨hidx, hbpe⟩ := Board.set?_inv hsim
    have hidx' : y * b'.size + x < b'.state.length := by
      rw [hbpe]
      simpa using hidx
    unfold Board.set?
    rw [if_pos hidx']
    rw [hbpe]
    simp only [List.set_set]
    rw [Board.list_set_self (by simpa [Board.get?] using hempty)]
  have hlegal : b.legal_move s x y = some (false, b) := by
    rw [Board.legal_move, if_neg hs, hempty]
    simp only
    rw [if_neg (by simp), if_neg (by omega), hcheck]
    simp only [Bool.false_eq_true, reduceIte]
    rw [hsim]
    simp only
    rw [hzero]
    simp only
    rw [hback]
    simp
  refine ⟨hlegal, ?_⟩
  rw [Board.make_move, hempty]
  simp only
  rw [if_neg (by simp), if_neg hs, hlegal]
  simp

theorem c4_suicide_prevention_witness :
    (Board.with_size 1).legal_move Stone.Black 0 0
        = some (false, Board.with_size 1) ∧
    (Board.with_size 1).make_move Stone.Black 0 0
        = some (false, Board.with_size 1) :=
  c4_suicide_prevention (Board.with_size 1) Stone.Black 0 0
    (Board.mk [Stone.Black] 1) (by unfold Board.WF; decide) (by decide)
    (by decide) (by decide) (by decide) (by decide) (by decide) rfl

/-- C9: chain/liberty symmetry.  For every well-formed board and in-bounds
coordinates `p`, `q` in the same connected same-color chain (as computed
by `chain_at`), `chain_at` and `liberties` agree on `p` and `q`; and on
any coordinate holding `Empty` both return the empty set. -/
theorem c9_chain_liberty_symmetry (b : Board) (p q : Pos) (S : Finset Pos)
    (hWF : b.WF) (hp1 : p.1 < b.size) (hp2 : p.2 < b.size)
    (hq1 : q.1 < b.size) (hq2 : q.2 < b.size)
    (hS : b.chain_at p.1 p.2 = some S) (hq : q ∈ S) :
    (b.chain_at q.1 q.2 = b.chain_at p.1 p.2 ∧
      b.liberties q.1 q.2 = b.liberties p.1 p.2) ∧
    ∀ r : Pos, b.get? r.1 r.2 = some Stone.Empty →
      b.chain_at r.1 r.2 = some ∅ ∧ b.liberties r.1 r.2 = some ∅ := by
  refine ⟨?_, fun r hr => ⟨Board.chain_at_empty hr, Board.liberties_empty hr⟩⟩
  have hpuniv : p ∈ b.univPos := Board.mem_univPos.2 ⟨hp1, hp2⟩
  obtain ⟨st, hst⟩ := Board.get?_eq_some hWF hpuniv
  by_cases hse : st = Stone.Empty
  · rw [hse] at hst
    rw [Board.chain_at_empty hst] at hS
    cases hS
    simp at hq
  · obtain ⟨Sp, hSp, hSpmem⟩ := Board.chain_at_spec hWF hp1 hp2 hst hse
    rw [hSp] at hS
    cases hS
    have hreachpq : Board.Reach b st (p.1, p.2) q := (hSpmem q).1 hq
    have hpc : b.get? (p.1, p.2).1 (p.1, p.2).2 = some st := hst
    have hqc : b.get? q.1 q.2 = some st := Board.Reach_colored hreachpq hpc
    have hcongr := Board.Reach_congr (p := ((p.1, p.2) : Pos)) hpuniv hpc hreachpq
    obtain ⟨Sq, hSq, hSqmem⟩ := Board.chain_at_spec hWF hq1 hq2 hqc hse
    obtain ⟨Lp, hLp, hLpmem⟩ := Board.liberties_spec hWF hp1 hp2 hst hse
    obtain ⟨Lq, hLq, hLqmem⟩ := Board.liberties_spec hWF hq1 hq2 hqc hse
    constructor
    · rw [hSp, hSq]
      congr 1
      ext r
      rw [hSqmem r, hSpmem r]
      exact hcongr r
    · rw [hLp, hLq]
      congr 1
      ext d
      rw [hLqmem d, hLpmem d]
      constructor
      · rintro ⟨hde, c, hrc, hnb⟩
        exact ⟨hde, c, (hcongr c).1 hrc, hnb⟩
      · rintro ⟨hde, c, hrc, hnb⟩
        exact ⟨hde, c, (hcongr c).2 hrc, hnb⟩

theorem c9_chain_liberty_symmetry_witness :
    (Board.mk [Stone.Black, Stone.Black, Stone.Empty, Stone.Empty] 2).chain_at 1 0
      = (Board.mk [Stone.Black, Stone.Black, Stone.Empty, Stone.Empty] 2).chain_at 0 0 ∧
    (Board.mk [Stone.Black, Stone.Black, Stone.Empty, Stone.Empty] 2).liberties 1 0
      = (Board.mk [Stone.Black, Stone.Black, Stone.Empty, Stone.Empty] 2).liberties 0 0 :=
  (c9_chain_liberty_symmetry
    (Board.mk [Stone.Black, Stone.Black, Stone.Empty, Stone.Empty] 2)
    (0, 0) (1, 0) {(1, 0), (0, 0)} (by unfold Board.WF; decide) (by decide)
    (by decide) (by decide) (by decide) rfl (by decide)).1

/-- Characterization of `Nat.sqrt`: it equals `k` whenever `k² ≤ n < (k+1)²`. -/
theorem nat_sqrt_eq_of {n k : Nat} (h1 : k * k ≤ n)
    (h2 : n < (k + 1) * (k + 1)) : Nat.sqrt n = k := by
  have ha : k ≤ Nat.sqrt n := Nat.le_sqrt.2 h1
  have hb : Nat.sqrt n < k + 1 := Nat.sqrt_lt.2 h2
  omega

/-- C8 counterexample: `Board::from_str` on a two-character input keeps both
cells (nothing is truncated) but infers `size = 1`, so the grid-length
invariant `len = size²` fails. -/
theorem c8_counterexample :
    (Board.from_str "##").state.length = 2 ∧
    (Board.from_str "##").size = 1 ∧
    ¬ ((Board.from_str "##").state.length
        = (Board.from_str "##").size * (Board.from_str "##").size) := by
  have h1 : (Board.from_str "##").state.length = 2 := rfl
  have h2 : (Board.from_str "##").size = 1 := by
    show Nat.sqrt (Board.from_str "##").state.length = 1
    rw [h1]
    exact nat_sqrt_eq_of (by norm_num) (by norm_num)
  refine ⟨h1, h2, ?_⟩
  rw [h1, h2]
  norm_num

/-- C8 (amended): `from_str` always sets `size` to the integer square root
of the kept cell count, so `size² ≤ len` always holds, with equality
exactly when the non-whitespace character count is a perfect square; a
non-square input keeps all its cells (no truncation), merely with a
smaller `size`.  Boards built by `with_size` satisfy `len = size²`
exactly. -/
theorem c8_grid_length_invariant :
    (∀ s : String,
      (Board.from_str s).size = Nat.sqrt (Board.from_str s).state.length ∧
      (Board.from_str s).size * (Board.from_str s).size
        ≤ (Board.from_str s).state.length ∧
      ((Board.from_str s).state.length
          = (Board.from_str s).size * (Board.from_str s).size ↔
        ∃ k, (Board.from_str s).state.length = k * k) ∧
      (Board.from_str s).state.length
        = ((s.toList.filter (fun c => !c.isWhitespace)).map
            Board.charToStone).length) ∧
    ∀ n : Nat, (Board.with_size n).state.length = n * n := by
  constructor
  · intro s
    refine ⟨rfl, Nat.sqrt_le _, ?_, rfl⟩
    constructor
    · intro h
      exact ⟨(Board.from_str s).size, h⟩
    · rintro ⟨k, hk⟩
      have hsz : (Board.from_str s).size = k := by
        show Nat.sqrt (Board.from_str s).state.length = k
        rw [hk, Nat.sqrt_eq]
      rw [hsz, ← hk]
  · intro n
    simp [Board.with_size]

/-- Mapping a function that succeeds pointwise through the `Option` monad
succeeds with the pointwise results. -/
theorem list_mapM_eq_some {α β : Type} {f : α → Option β} {g : α → β} :
    ∀ {l : List α}, (∀ a ∈ l, f a = some (g a)) →
      l.mapM f = some (l.map g) := by
  intro l
  induction l with
  | nil => intro _; rfl
  | cons a t ih =>
    intro h
    rw [List.mapM_cons, h a (by simp), ih (fun a ha => h a (by simp [ha]))]
    rfl

theorem sum_replicate_nat (n x : Nat) : (List.replicate n x).sum = n * x := by
  induction n with
  | zero => simp
  | succ k ih =>
    rw [List.replicate_succ, List.sum_cons, ih]
    ring

/-- Dropping the trailing space and filtering out whitespace from a display
row recovers exactly its cell glyphs. -/
theorem filter_display_row {cells : List Char}
    (h : ∀ c ∈ cells, c.isWhitespace = false) :
    ((cells.map (fun c => [c, ' '])).flatten.dropLast).filter
      (fun c => !c.isWhitespace) = cells := by
  induction cells with
  | nil => rfl
  | cons c cs ih =>
    cases cs with
    | nil => simp [h c (by simp)]
    | cons d ds =>
      have hne : (((d :: ds).map (fun c => [c, ' '])).flatten) ≠ [] := by simp
      rw [List.map_cons, List.flatten_cons,
        List.dropLast_append_of_ne_nil _ hne, List.filter_append]
      have hc := h c (by simp)
      have hrest := ih (fun e he => h e (by simp [he]))
      simp only [List.filter_cons, hc, Bool.not_false, List.filter_nil]
      rw [hrest]
      simp

/-- Filtering whitespace out of newline-joined rows yields the
concatenation of the rows' filtered contents. -/
theorem filter_intercalate_rows : ∀ {rows : List (List Char)},
    (List.intercalate ['\n'] rows).filter (fun c => !c.isWhitespace)
      = (rows.map (fun r => r.filter (fun c => !c.isWhitespace))).flatten := by
  intro rows
  induction rows with
  | nil => rfl
  | cons r rs ih =>
    cases rs with
    | nil => simp [List.intercalate, List.intersperse]
    | cons r2 t =>
      show ((List.intersperse ['\n'] (r :: r2 :: t)).flatten).filter _ = _
      rw [List.intersperse_cons_cons, List.flatten_cons, List.flatten_cons,
        List.filter_append, List.filter_append]
      have ih' : ((List.intersperse ['\n'] (r2 :: t)).flatten).filter
          (fun c => !c.isWhitespace)
          = ((r2 :: t).map (fun r => r.filter (fun c => !c.isWhitespace))).flatten :=
        ih
      rw [ih']
      simp

/-- C7 counterexample: the Display form of a board holding a stone does not
re-parse to the same board, because `from_str`'s symbol table does not
recognize the stone glyphs Display emits: the 1×1 board with a black
stone renders to "●", which parses back to an empty board. -/
theorem c7_counterexample :
    (Board.mk [Stone.Black] 1).render = some "●" ∧
    Board.from_str "●" = Board.mk [Stone.Empty] 1 ∧
    (Board.mk [Stone.Black] 1).render.map Board.from_str
      ≠ some (Board.mk [Stone.Black] 1) := by
  have h1 : (Board.mk [Stone.Black] 1).render = some "●" := rfl
  have h2 : Board.from_str "●" = Board.mk [Stone.Empty] 1 := by
    have hst : (Board.from_str "●").state = [Stone.Empty] := rfl
    have hsz : (Board.from_str "●").size = 1 := by
      show Nat.sqrt (Board.from_str "●").state.length = 1
      rw [hst]
      exact nat_sqrt_eq_of (by norm_num) (by norm_num)
    cases he : Board.from_str "●"
    rw [he] at hst hsz
    simp at hst hsz
    rw [hst, hsz]
  refine ⟨h1, h2, ?_⟩
  rw [h1, Option.map_some', h2]
  intro hcon
  cases Option.some_inj.1 hcon

/-- C7 (amended): the render/parse round-trip holds exactly for stone-free
boards.  For every board whose grid length is `size²` and whose cells are
all `Empty` — the only boards Display renders using glyphs that the
`from_str` symbol table maps back to the original cell — rendering and
re-parsing reproduces the board.  (Boards holding stones are not
reproduced: see the counterexample.) -/
theorem c7_render_roundtrip (b : Board)
    (hlen : b.state.length = b.size * b.size)
    (hemp : ∀ c ∈ b.state, c = Stone.Empty) :
    b.render.map Board.from_str = some b := by
  classical
  set glyph : Nat → Nat → Char :=
    fun x y => if b.star_point x y then '•' else Stone.Empty.char with hglyph
  have hcell : ∀ y ∈ List.range b.size, ∀ x ∈ List.range b.size,
      b.cellChar x y = some (glyph x y) := by
    intro y hy x hx
    rw [List.mem_range] at hx hy
    have hidx : y * b.size + x < b.state.length := by
      rw [hlen]
      exact Board.idx_lt (p := (x, y)) (Board.mem_univPos.2 ⟨hx, hy⟩)
    have hv : b.state.get? (y * b.size + x)
        = some (b.state.get ⟨y * b.size + x, hidx⟩) := List.get?_eq_get hidx
    have hve : b.state.get ⟨y * b.size + x, hidx⟩ = Stone.Empty :=
      hemp _ (List.get?_mem hv)
    rw [hve] at hv
    have hv2 : b.state[y * b.size + x]? = some Stone.Empty := by
      rw [← List.get?_eq_getElem?]
      exact hv
    by_cases hstar : b.star_point x y <;>
      simp [Board.cellChar, hv2, hglyph, hstar]
  have hrow : ∀ y ∈ List.range b.size,
      b.renderRow y = some ((((List.range b.size).map (fun x => glyph x y)).map
        (fun c => [c, ' '])).flatten.dropLast) := by
    intro y hy
    unfold Board.renderRow
    rw [list_mapM_eq_some (hcell y hy)]
    rfl
  have hrows : (List.range b.size).mapM (fun y => b.renderRow y)
      = some ((List.range b.size).map (fun y =>
          (((List.range b.size).map (fun x => glyph x y)).map
            (fun c => [c, ' '])).flatten.dropLast)) :=
    list_mapM_eq_some hrow
  have hrender : b.render = some (String.mk (List.intercalate ['\n']
      ((List.range b.size).map (fun y =>
        (((List.range b.size).map (fun x => glyph x y)).map
          (fun c => [c, ' '])).flatten.dropLast)))) := by
    unfold Board.render
    rw [hrows]
    rfl
  rw [hrender, Option.map_some']
  congr 1
  -- the reparse of the rendered text
  have hglyphws : ∀ x y : Nat, (glyph x y).isWhitespace = false := by
    intro x y
    rw [hglyph]
    by_cases hstar : b.star_point x y <;> simp [hstar, Stone.char] <;> decide
  have hglyphstone : ∀ x y : Nat, Board.charToStone (glyph x y) = Stone.Empty := by
    intro x y
    rw [hglyph]
    by_cases hstar : b.star_point x y <;> simp [hstar, Stone.char] <;> decide
  have hfilter : (String.mk (List.intercalate ['\n']
      ((List.range b.size).map (fun y =>
        (((List.range b.size).map (fun x => glyph x y)).map
          (fun c => [c, ' '])).flatten.dropLast)))).toList.filter
            (fun c => !c.isWhitespace)
      = ((List.range b.size).map (fun y =>
          (List.range b.size).map (fun x => glyph x y))).flatten := by
    show (List.intercalate ['\n'] _).filter _ = _
    rw [filter_intercalate_rows]
    congr 1
    rw [List.map_map]
    refine List.map_congr_left ?_
    intro y _
    exact filter_display_row (fun c hc => by
      obtain ⟨x, _, rfl⟩ := List.mem_map.1 hc
      exact hglyphws x y)
  have hstate : (Board.from_str (String.mk (List.intercalate ['\n']
      ((List.range b.size).map (fun y =>
        (((List.range b.size).map (fun x => glyph x y)).map
          (fun c => [c, ' '])).flatten.dropLast))))).state
      = b.state := by
    show (((String.mk _).toList.filter (fun c => !c.isWhitespace)).map
      Board.charToStone) = b.state
    rw [hfilter]
    have hlen2 : ((((List.range b.size).map (fun y =>
        (List.range b.size).map (fun x => glyph x y))).flatten).map
          Board.charToStone).length = b.size * b.size := by
      rw [List.length_map, List.length_flatten, List.map_map]
      have : ((List.range b.size).map
          (List.length ∘ fun y => (List.range b.size).map (fun x => glyph x y)))
          = List.replicate b.size b.size := by
        refine List.eq_replicate_iff.2 ⟨by simp, ?_⟩
        intro m hm
        obtain ⟨y, _, rfl⟩ := List.mem_map.1 hm
        simp
      rw [this, sum_replicate_nat]
    have hmem2 : ∀ s ∈ (((List.range b.size).map (fun y =>
        (List.range b.size).map (fun x => glyph x y))).flatten).map
          Board.charToStone, s = Stone.Empty := by
      intro s hs
      obtain ⟨c, hc, rfl⟩ := List.mem_map.1 hs
      obtain ⟨row, hrow', hcrow⟩ := List.mem_flatten.1 hc
      obtain ⟨y, _, rfl⟩ := List.mem_map.1 hrow'
      obtain ⟨x, _, rfl⟩ := List.mem_map.1 hcrow
      exact hglyphstone x y
    rw [List.eq_replicate_iff.2 ⟨hlen2, hmem2⟩,
      List.eq_replicate_iff.2 ⟨hlen, hemp⟩]
  have hsize : (Board.from_str (String.mk (List.intercalate ['\n']
      ((List.range b.size).map (fun y =>
        (((List.range b.size).map (fun x => glyph x y)).map
          (fun c => [c, ' '])).flatten.dropLast))))).size
      = b.size := by
    show Nat.sqrt (Board.from_str _).state.length = b.size
    rw [hstate, hlen, Nat.sqrt_eq]
  cases hfs : Board.from_str (String.mk (List.intercalate ['\n']
      ((List.range b.size).map (fun y =>
        (((List.range b.size).map (fun x => glyph x y)).map
          (fun c => [c, ' '])).flatten.dropLast))))
  rw [hfs] at hstate hsize
  simp only at hstate hsize
  cases b
  simp only at hstate hsize hlen hemp
  rw [hstate, hsize]

theorem c7_render_roundtrip_witness :
    ((Board.with_size 2).state.length
        = (Board.with_size 2).size * (Board.with_size 2).size) ∧
    (Board.with_size 2).render.map Board.from_str = some (Board.with_size 2) :=
  ⟨by decide,
    c7_render_roundtrip (Board.with_size 2) (by decide) (by decide)⟩

/-- C2: simultaneous multi-chain capture.  For every legal placement on a
well-formed board, `make_move` empties every cell of every orthogonally
adjacent opposing chain whose unique liberty on the *pre-placement* board
is the target — all such chains in the same call — writes the moving
stone to the target, and changes no other cell. -/
theorem c2_simultaneous_capture (b : Board) (s : Stone) (x y : Nat)
    (b' : Board) (hWF : b.WF) (hx : x < b.size) (hy : y < b.size)
    (hempty : b.get? x y = some Stone.Empty) (hs : s ≠ Stone.Empty)
    (h : b.make_move s x y = some (true, b')) :
    b'.get? x y = some s ∧
    (∀ p : Pos, Board.CapturedCell b s x y p →
      b'.get? p.1 p.2 = some Stone.Empty) ∧
    (∀ p : Pos, p.1 < b.size → p.2 < b.size → p ≠ (x, y) →
      ¬ Board.CapturedCell b s x y p →
      b'.get? p.1 p.2 = b.get? p.1 p.2) := by
  have hroot : ((x, y) : Pos) ∈ b.univPos := Board.mem_univPos.2 ⟨hx, hy⟩
  have hsne : s.not ≠ Stone.Empty := Stone.not_ne_empty hs
  -- peel `make_move` down to the capture loop and the final write
  rw [Board.make_move, hempty] at h
  simp only at h
  rw [if_neg (by simp), if_neg hs] at h
  cases hlm : b.legal_move s x y with
  | none =>
    rw [hlm] at h
    exact absurd h (by simp)
  | some r =>
    rw [hlm] at h
    simp only at h
    obtain ⟨r1, rb⟩ := r
    have hrb : rb = b := Board.legal_move_board_eq hlm
    rw [hrb] at h
    by_cases hr1 : r1 = true
    · subst hr1
      rw [if_neg (by simp)] at h
      -- run the capture-loop invariant from the empty cleared set
      have hns : ∀ q ∈ b.neighbours x y, q ∈ b.univPos :=
        fun q hq => Board.neighbours_mem_univPos hroot hq
      have hD0 : Board.DGood b s.not (∅ : Set Pos) :=
        ⟨fun p hp => absurd hp (Set.not_mem_empty p),
         fun p hp => absurd hp (Set.not_mem_empty p)⟩
      have hC0 : Board.Cleared b (∅ : Set Pos) b :=
        ⟨rfl, rfl, fun p _ =>
          ⟨fun hc => absurd hc (Set.not_mem_empty p), fun _ => rfl⟩⟩
      obtain ⟨bc', hrun, hDf, hCf⟩ :=
        Board.captureLoop_spec hWF hs (b.neighbours x y) ∅ b hns hD0 hC0
      rw [hrun] at h
      simp only at h
      have huniv : bc'.univPos = b.univPos := Board.univPos_congr hCf.1
      have hbcWF : bc'.WF := Board.cleared_WF hWF hCf
      have hrootbc : ((x, y) : Pos) ∈ bc'.univPos := by
        rw [huniv]
        exact hroot
      have hset := Board.set?_eq_some hbcWF hrootbc s
      rw [hset] at h
      simp only [Option.some_inj, Prod.mk.injEq, true_and] at h
      have hb' : b' = { bc' with
          state := bc'.state.set (y * bc'.size + x) s } := h.symm
      -- captured cells are exactly the `CapSet` of the neighbour list
      have hbridge : ∀ p : Pos, Board.CapturedCell b s x y p ↔
          Board.CapSet b s x y (b.neighbours x y) p := by
        intro p
        constructor
        · rintro ⟨n, hn, hcol, hlib, C, hC, hpC⟩
          have hnuniv := Board.mem_univPos.1 (hns n hn)
          obtain ⟨C', hC', hCpmem⟩ :=
            Board.chain_at_spec hWF hnuniv.1 hnuniv.2 hcol hsne
          rw [hC'] at hC
          cases hC
          exact ⟨n, hn, ⟨hcol, hlib⟩, (hCpmem p).1 hpC⟩
        · rintro ⟨n, hn, ⟨hcol, hlib⟩, hreach⟩
          have hnuniv := Board.mem_univPos.1 (hns n hn)
          obtain ⟨C', hC', hCpmem⟩ :=
            Board.chain_at_spec hWF hnuniv.1 hnuniv.2 hcol hsne
          exact ⟨n, hn, hcol, hlib, C', hC', (hCpmem p).2 hreach⟩
      refine ⟨?_, ?_, ?_⟩
      · rw [hb']
        exact Board.get?_set?_self hrootbc (Board.set?_eq_some hbcWF hrootbc s)
      · intro p hp
        have hcap : p ∈ ((∅ : Set Pos) ∪ Board.CapSet b s x y (b.neighbours x y)) :=
          Or.inr ((hbridge p).1 hp)
        obtain ⟨hpcol, hpuniv⟩ := hDf.1 p hcap
        have hpne : p ≠ (x, y) := by
          rintro rfl
          rw [hempty] at hpcol
          exact hsne (Option.some_inj.1 hpcol).symm
        have hpbc : p ∈ bc'.univPos := by
          rw [huniv]
          exact hpuniv
        rw [hb', Board.get?_set?_other hrootbc hpbc hpne
          (Board.set?_eq_some hbcWF hrootbc s)]
        exact (hCf.2.2 p hpuniv).1 hcap
      · intro p hp1 hp2 hpne hpnc
        have hpuniv : p ∈ b.univPos := Board.mem_univPos.2 ⟨hp1, hp2⟩
        have hpbc : p ∈ bc'.univPos := by
          rw [huniv]
          exact hpuniv
        have hnocap : p ∉ ((∅ : Set Pos) ∪ Board.CapSet b s x y (b.neighbours x y)) := by
          rintro (hc | hc)
          · exact Set.not_mem_empty p hc
          · exact hpnc ((hbridge p).2 hc)
        rw [hb', Board.get?_set?_other hrootbc hpbc hpne
          (Board.set?_eq_some hbcWF hrootbc s)]
        exact (hCf.2.2 p hpuniv).2 hnocap
    · rw [Bool.not_eq_true] at hr1
      subst hr1
      rw [if_pos (by simp)] at h
      exact absurd h (by simp)

theorem c2_simultaneous_capture_witness :
    (Board.with_size 2).make_move Stone.Black 0 0
      = some (true, Board.mk
          [Stone.Black, Stone.Empty, Stone.Empty, Stone.Empty] 2) ∧
    (Board.mk [Stone.Black, Stone.Empty, Stone.Empty, Stone.Empty] 2).get? 0 0
      = some Stone.Black :=
  ⟨by decide,
    (c2_simultaneous_capture (Board.with_size 2) Stone.Black 0 0
      (Board.mk [Stone.Black, Stone.Empty, Stone.Empty, Stone.Empty] 2)
      (by unfold Board.WF; decide) (by decide) (by decide) (by decide)
      (by decide) (by decide)).1⟩

theorem c1_ko_rule_commit_witness :
    Game.make_move
      { board := Board.with_size 2,
        last_board := some { state :=
          [Stone.Black, Stone.Empty, Stone.Empty, Stone.Empty], size := 2 },
        black := {}, white := {} } Stone.Black 0 0
    = some (false,
      { board := Board.with_size 2,
        last_board := some { state :=
          [Stone.Black, Stone.Empty, Stone.Empty, Stone.Empty], size := 2 },
        black := {}, white := {} }) :=
  (c1_ko_rule_commit _ Stone.Black 0 0
    { state := [Stone.Black, Stone.Empty, Stone.Empty, Stone.Empty], size := 2 }
    (by decide)).1 rfl

